import Mathlib

/-!
Verification of the `libstring` dynamic byte-string library (`src/string_lib.c`,
`src/string_lib.h`) against its natural-language specification.

The C `string` type is a tagged union: an inline (SSO) buffer of
`SSO_SIZE + 1 = 24` bytes, or a heap buffer with an explicit capacity.  We model
it shallowly:

* bytes are `Nat` (the code is byte-oriented; values are below 256 in practice
  but nothing here depends on that);
* the active buffer (`stack.data` when `is_small`, `heap.data` otherwise) is a
  `List Nat` whose length is the physical allocation size (24 inline, the
  heap capacity otherwise);
* `size_t` arithmetic that the C performs unchecked is wrapped with `% 2 ^ 64`
  (`sz`); the `__builtin_*_overflow` checks are modelled as explicit
  comparisons against `2 ^ 64`;
* bytes the C leaves uninitialized (allocation slack, union re-interpretation
  slack behind the terminator) are modelled as `0`.  No observable result in
  the theorems below reads those bytes: observations go through `content`
  (the first `length` bytes) and the terminator position;
* each operation that may allocate receives an allocation oracle
  `alloc : Bool`: `true` means every allocation attempt inside the call
  succeeds, `false` means the first attempt fails (the C allocator can fail per
  call site; one flag per call is enough for the properties stated here);
* the fixed-size struct header allocation of `string_new` /
  `string_with_capacity` is assumed to succeed; `NULL` receivers are modelled
  with `Option` only where a claim mentions them (`string_length`,
  `string_capacity`, `string_compare`).

Loops are modelled with an explicit structural fuel argument equal to the
loop-variant bound at the call site (each C loop strictly decreases that
bound, so the fuel is never exhausted on the modelled executions; the
exhaustion branches return the loop state unchanged).
-/

namespace StringLib

/-- Truncation to `size_t` width: the C code computes sizes in 64-bit
`size_t`, which wraps modulo `2 ^ 64`. -/
def sz (n : Nat) : Nat := n % 2 ^ 64

/-- `SSO_SIZE` from `string_lib.h`: inline strings hold up to 23 content
bytes plus the terminator in a 24-byte buffer. -/
def SSO_SIZE : Nat := 23

/-- `CACHE_LINE_SIZE` from `string_lib.c`: all heap capacities are rounded up
to a multiple of 64. -/
def CACHE_LINE_SIZE : Nat := 64

/-- The rounding `(x + CACHE_LINE_SIZE - 1) & ~(CACHE_LINE_SIZE - 1)` from
`string_lib.c`, performed in `size_t` arithmetic (the addition can wrap). -/
def round64 (x : Nat) : Nat := sz (x + 63) / 64 * 64

/-- `memcpy`-style blit of `src` into `dst` starting at index `i`.  The
result always has the length of `dst` (writes past the end of the
destination are dropped; all calls below are in range, which the proofs
establish from the capacity bookkeeping). -/
def blit (dst : List Nat) (i : Nat) (src : List Nat) : List Nat :=
  dst.take i ++ src.take (dst.length - i) ++ dst.drop (i + src.length)

/-- Single byte store `dst[i] = v`. -/
def setByte (dst : List Nat) (i v : Nat) : List Nat := dst.set i v

/-- Reading the sub-buffer of `n` bytes starting at index `i`. -/
def extract (l : List Nat) (i n : Nat) : List Nat := (l.drop i).take n

/-- Resize a buffer to exactly `n` bytes, as `realloc` does: the common
prefix is preserved, freshly allocated slack is uninitialized (modelled 0). -/
def resize (n : Nat) (l : List Nat) : List Nat :=
  l.take n ++ List.replicate (n - l.length) 0

/-- Scan of `memmem`: try each successive suffix of the haystack, returning
the absolute index `k` of the first position where the needle is a prefix. -/
def memmem_go (nee : List Nat) : List Nat → Nat → Option Nat
  | [], k => if nee.isPrefixOf [] then some k else none
  | c :: rest, k =>
    if nee.isPrefixOf (c :: rest) then some k else memmem_go nee rest (k + 1)

/-- `memmem(hay, |hay|, nee, |nee|)`: index of the leftmost occurrence of
`nee` in `hay`, `none` when there is none.  An empty needle matches at 0,
as glibc's `memmem` does. -/
def memmemIdx (hay nee : List Nat) : Option Nat := memmem_go nee hay 0

/-- The C `string` struct (`string_lib.h`): discriminator `is_small`, the
active buffer, and the content length.  `buf.length` is the physical
allocation: 24 bytes inline, the heap capacity otherwise. -/
structure string where
  is_small : Bool
  buf : List Nat
  length : Nat
deriving DecidableEq, Repr

/-- `STRING_CAPACITY(str)` from `string_lib.c`: `SSO_SIZE` for inline
strings, the heap capacity otherwise. -/
def STRING_CAPACITY (s : string) : Nat :=
  if s.is_small then SSO_SIZE else s.buf.length

/-- The observable content: the first `length` bytes of the buffer. -/
def content (s : string) : List Nat := s.buf.take s.length

/-- The bytes `strlen`-style readers see: the buffer up to the first NUL. -/
def cstrOf (s : string) : List Nat := s.buf.takeWhile (fun c => c ≠ 0)

/-- Well-formedness of a reachable `string` value: the buffer has the
physical size of the representation (24 inline; the heap capacity, a
positive multiple of 64 below `2 ^ 64`, otherwise), the length leaves room
for the terminator (inline strings may use all 23 reported-capacity bytes,
the 24th byte holding the terminator), and the byte at offset `length` is
the terminator. -/
def WF (s : string) : Prop :=
  (s.is_small = true → s.buf.length = SSO_SIZE + 1 ∧ s.length ≤ SSO_SIZE) ∧
  (s.is_small = false →
    64 ≤ s.buf.length ∧ s.buf.length % 64 = 0 ∧ s.buf.length < 2 ^ 64 ∧
    s.length + 1 ≤ s.buf.length) ∧
  s.buf[s.length]? = some 0

instance (s : string) : Decidable (WF s) := by
  unfold WF; infer_instance

/-- The capacity-doubling loop of `ensure_capacity` (`string_lib.c` lines
66-71): double until the capacity covers `needed`; on `size_t` overflow of
the doubling, fall back to exactly `needed`.  `fuel` is structural fuel;
65 doublings always suffice for a positive capacity (the exhaustion branch
mirrors the overflow fallback and is unreachable from the library's states,
whose heap capacities are at least 64). -/
def grow_loop : Nat → Nat → Nat → Nat
  | 0, _, needed => needed
  | fuel + 1, cap, needed =>
    if cap < needed then
      if 2 * cap < 2 ^ 64 then grow_loop fuel (2 * cap) needed else needed
    else cap

/-- `convert_to_heap(str, needed_capacity)` (`string_lib.c` lines 32-52):
promote an inline string to a heap buffer of `round64 needed` bytes,
copying content plus terminator.  `alloc` is the allocation oracle. -/
def convert_to_heap (alloc : Bool) (s : string) (needed : Nat) : Bool × string :=
  if s.is_small = false then (true, s)
  else if alloc then
    (true, { is_small := false, buf := resize (round64 needed) (s.buf.take (s.length + 1)),
             length := s.length })
  else (false, s)

/-- `try_shrink_to_small(str)` (`string_lib.c` lines 22-29): demote a heap
string whose length fits inline, copying content plus terminator into the
24-byte inline buffer. -/
def try_shrink_to_small (s : string) : string :=
  if s.is_small = true ∨ SSO_SIZE < s.length then s
  else { is_small := true, buf := resize (SSO_SIZE + 1) (s.buf.take (s.length + 1)),
         length := s.length }

/-- `ensure_capacity(str, needed_capacity)` (`string_lib.c` lines 54-85):
return immediately when the current capacity covers `needed`; promote an
inline string via `convert_to_heap`; otherwise double the heap capacity
until sufficient, round up to a 64-byte multiple, and `realloc`. -/
def ensure_capacity (alloc : Bool) (s : string) (needed : Nat) : Bool × string :=
  if needed ≤ STRING_CAPACITY s then (true, s)
  else if s.is_small then convert_to_heap alloc s needed
  else if alloc then
    (true, { s with buf := resize (round64 (grow_loop 65 s.buf.length needed)) s.buf })
  else (false, s)

/-- `string_set(str, cstr)` (`string_lib.c` lines 192-203).  The `cstr`
argument stands for the NUL-free byte list of a C string, so `strlen` is
its length. -/
def string_set (alloc : Bool) (s : string) (cstr : List Nat) : Bool × string :=
  let n := cstr.length
  match ensure_capacity alloc s (sz (n + 1)) with
  | (false, s1) => (false, s1)
  | (true, s1) => (true, { s1 with buf := blit s1.buf 0 (cstr ++ [0]), length := n })

/-- `string_new(initial_value)` (`string_lib.c` lines 87-104) for a non-NULL
initial value: a fresh inline empty string, then `string_set`.  The struct
header allocation is assumed to succeed. -/
def string_new (alloc : Bool) (cstr : List Nat) : Option string :=
  let s0 : string := { is_small := true, buf := List.replicate (SSO_SIZE + 1) 0,
                       length := 0 }
  match string_set alloc s0 cstr with
  | (true, s) => some s
  | (false, _) => none

/-- `string_with_capacity(capacity)` (`string_lib.c` lines 106-133). -/
def string_with_capacity (alloc : Bool) (capacity : Nat) : Option string :=
  if capacity ≤ SSO_SIZE then
    some { is_small := true, buf := List.replicate (SSO_SIZE + 1) 0, length := 0 }
  else if alloc then
    some { is_small := false, buf := resize (round64 capacity) [0], length := 0 }
  else none

/-- `string_length(str)` (`string_lib.c` lines 144-146); `NULL` gives 0. -/
def string_length : Option string → Nat
  | none => 0
  | some s => s.length

/-- `string_capacity(str)` (`string_lib.c` lines 148-150); `NULL` gives 0. -/
def string_capacity : Option string → Nat
  | none => 0
  | some s => STRING_CAPACITY s

/-- `string_append_cstr(str, cstr)` (`string_lib.c` lines 165-178): empty
append succeeds immediately; otherwise grow and copy the bytes plus the
terminator after the current content. -/
def string_append_cstr (alloc : Bool) (s : string) (cstr : List Nat) : Bool × string :=
  let n := cstr.length
  if n = 0 then (true, s)
  else
    match ensure_capacity alloc s (sz (s.length + n + 1)) with
    | (false, s1) => (false, s1)
    | (true, s1) =>
      (true, { s1 with buf := blit s1.buf s1.length (cstr ++ [0]),
                       length := sz (s1.length + n) })

/-- `string_append(str, other)` (`string_lib.c` lines 160-163): append the
C string at `STRING_DATA(other)`, i.e. `other`'s buffer up to its first
NUL byte. -/
def string_append (alloc : Bool) (s other : string) : Bool × string :=
  string_append_cstr alloc s (cstrOf other)

/-- `string_append_char(str, c)` (`string_lib.c` lines 180-190). -/
def string_append_char (alloc : Bool) (s : string) (c : Nat) : Bool × string :=
  match ensure_capacity alloc s (sz (s.length + 2)) with
  | (false, s1) => (false, s1)
  | (true, s1) =>
    (true, { s1 with buf := setByte (setByte s1.buf s1.length c) (s1.length + 1) 0,
                     length := sz (s1.length + 1) })

/-- `string_clear(str)` (`string_lib.c` lines 205-209). -/
def string_clear (s : string) : string :=
  { s with buf := setByte s.buf 0 0, length := 0 }

/-- Byte-wise comparison result of two equal-length byte lists: the signed
difference of the first differing pair, 0 when none differs.  (glibc's
`memcmp` guarantees only the sign; the modelled magnitude realises that
sign.) -/
def memcmpBytes : List Nat → List Nat → Int
  | a :: as, b :: bs => if a = b then memcmpBytes as bs else (a : Int) - (b : Int)
  | _, _ => 0

/-- `memcmp(x, y, n)` over the modelled buffers. -/
def memcmp (x y : List Nat) (n : Nat) : Int := memcmpBytes (x.take n) (y.take n)

/-- Conversion of a `size_t` value to a C `int` (32-bit, two's complement,
GCC's modular implementation-defined behaviour). -/
def int_of_size_t (n : Nat) : Int :=
  let m : Nat := n % 2 ^ 32
  if m < 2 ^ 31 then (m : Int) else (m : Int) - 2 ^ 32

/-- `size_t` subtraction `x - y` (wraps modulo `2 ^ 64`). -/
def sizeSub (x y : Nat) : Nat := (sz x + 2 ^ 64 - sz y) % 2 ^ 64

/-- `string_compare(str1, str2)`, the portable variant compiled without
`__SSE4_2__` (`string_lib.c` lines 436-442): NULL before non-NULL, then the
raw `memcmp` over the shorter length — with no length tie-break. -/
def string_compare : Option string → Option string → Int
  | none, none => 0
  | none, some _ => -1
  | some _, none => 1
  | some a, some b => memcmp a.buf b.buf (min a.length b.length)

/-- `string_compare(str1, str2)`, the `__SSE4_2__` variant (`string_lib.c`
lines 214-256): NULL handling as above, then a byte-wise first-difference
over the shorter length with the `str1->length - str2->length` tie-break
(a `size_t` subtraction converted to `int`).  The branch taken for lengths
below 16 is modelled verbatim; the 16-byte SIMD scan computes the same
byte-wise first difference and falls through to the same tie-break, so both
branches share one modelled expression. -/
def string_compare_sse42 : Option string → Option string → Int
  | none, none => 0
  | none, some _ => -1
  | some _, none => 1
  | some a, some b =>
    let r := memcmp a.buf b.buf (min a.length b.length)
    if r ≠ 0 then r else int_of_size_t (sizeSub a.length b.length)

/-- `toupper` on a byte in the C locale. -/
def toupperB (c : Nat) : Nat := if 97 ≤ c ∧ c ≤ 122 then c - 32 else c

/-- `tolower` on a byte in the C locale. -/
def tolowerB (c : Nat) : Nat := if 65 ≤ c ∧ c ≤ 90 then c + 32 else c

/-- In-place map of `f` over the first `n` bytes of a buffer. -/
def mapRange (f : Nat → Nat) (l : List Nat) (n : Nat) : List Nat :=
  (l.take n).map f ++ l.drop n

/-- `string_to_upper(str)` (`string_lib.c` lines 459-466; the `__SSE4_2__`
variant at lines 351-391 is its observably identical vectorisation). -/
def string_to_upper (s : string) : string :=
  if s.length = 0 then s else { s with buf := mapRange toupperB s.buf s.length }

/-- `string_to_lower(str)` (`string_lib.c` lines 468-475). -/
def string_to_lower (s : string) : string :=
  if s.length = 0 then s else { s with buf := mapRange tolowerB s.buf s.length }

/-- `isspace` on a byte in the C locale: space or one of `\t \n \v \f \r`. -/
def isspaceB (c : Nat) : Bool := c == 32 || (9 ≤ c && c ≤ 13)

/-- The offset `start - data` after the leading-whitespace scan of
`string_trim` (`string_lib.c` line 486): the number of leading whitespace
bytes of the content (the loop stops at `end`, i.e. within the content). -/
def trim_ls (s : string) : Nat := ((s.buf.take s.length).takeWhile isspaceB).length

/-- `new_length = end - start + 1` of `string_trim` (`string_lib.c` lines
487-489): 0 when the content is pure whitespace (the `start` pointer
passed `end`), otherwise the content length minus leading and trailing
whitespace. -/
def trim_new_length (s : string) : Nat :=
  if trim_ls s = s.length then 0
  else s.length - trim_ls s -
    (((s.buf.take s.length).drop (trim_ls s)).reverse.takeWhile isspaceB).length

/-- The trimmed bytes `start[0..new_length)` of `string_trim`. -/
def trim_trimmed (s : string) : List Nat :=
  ((s.buf.take s.length).drop (trim_ls s)).take (trim_new_length s)

/-- The state after the demote-or-compact step of `string_trim`
(`string_lib.c` lines 491-510): demotion to the inline buffer when a heap
string's trimmed length fits `SSO_SIZE`, in-place `memmove` when a prefix
was removed, no byte movement otherwise. -/
def trim_s1 (s : string) : string :=
  if s.is_small = false ∧ trim_new_length s ≤ SSO_SIZE then
    { is_small := true, buf := resize (SSO_SIZE + 1) (trim_trimmed s ++ [0]),
      length := s.length }
  else if 0 < trim_ls s then
    { s with buf := blit s.buf 0 (extract s.buf (trim_ls s) (trim_new_length s)) }
  else s

/-- The state after terminator placement and length update of
`string_trim` (`string_lib.c` lines 512-513). -/
def trim_s2 (s : string) : string :=
  { trim_s1 s with buf := setByte (trim_s1 s).buf (trim_new_length s) 0,
                   length := trim_new_length s }

/-- `string_trim(str)` (`string_lib.c` lines 480-528): two-pointer
whitespace scan, opportunistic demotion to the inline representation when
the trimmed length fits, in-place compaction otherwise, terminator
placement, and the oversized-heap-buffer shrink heuristic (lines 515-527;
a failed shrink `realloc` keeps the buffer). -/
def string_trim (alloc : Bool) (s : string) : string :=
  if s.length = 0 then s
  else if (trim_s2 s).is_small = false ∧
      sz (2 * trim_new_length s) < (trim_s2 s).buf.length ∧
      SSO_SIZE < trim_new_length s ∧ trim_new_length s < 1024 then
    if alloc then
      { trim_s2 s with
        buf := resize (round64 (sz (2 * trim_new_length s))) (trim_s2 s).buf }
    else trim_s2 s
  else trim_s2 s

/-- `string_substr(str, start, length)` (`string_lib.c` lines 530-541). -/
def string_substr (alloc : Bool) (s : string) (start len : Nat) : Option string :=
  if s.length ≤ start then none
  else
    let len := if s.length < sz (start + len) then s.length - start else len
    match string_with_capacity alloc (sz (len + 1)) with
    | none => none
    | some r =>
      some { r with buf := setByte (blit r.buf 0 (extract s.buf start len)) len 0,
                    length := len }

/-- The occurrence-counting loops of `string_split` and `string_replace`
(`string_lib.c` lines 556-561 and 647-651): greedy left-to-right
non-overlapping `memmem` scan.  Fuel is the remaining length plus one; each
hit advances by at least one byte. -/
def count_occ : Nat → List Nat → List Nat → Nat
  | 0, _, _ => 0
  | fuel + 1, d, r =>
    match memmemIdx r d with
    | none => 0
    | some i => 1 + count_occ fuel d (r.drop (i + d.length))

/-- The field-producing loop of `string_split` (`string_lib.c` lines
570-593): while bytes remain, cut at the next delimiter occurrence (or the
end).  A part whose start offset would equal the string length — i.e. the
empty field after a trailing delimiter — is never produced, because the
loop condition `start < data + length` has already failed. -/
def split_fields : Nat → List Nat → List Nat → List (List Nat)
  | 0, _, _ => []
  | fuel + 1, d, r =>
    if r.length = 0 then []
    else
      match memmemIdx r d with
      | none => [r]
      | some i => r.take i :: split_fields fuel d (r.drop (i + d.length))

/-- One split part (`string_lib.c` lines 578-588): a fresh string of the
part's bytes. -/
def mkSplitPart (alloc : Bool) (b : List Nat) : Option string :=
  match string_with_capacity alloc (sz (b.length + 1)) with
  | none => none
  | some r =>
    some { r with buf := setByte (blit r.buf 0 b) b.length 0, length := b.length }

/-- `string_split(str, delim, count)` (`string_lib.c` lines 543-597).  The
result array is `calloc`ed with `num_splits` slots; slots the field loop
never reaches stay `NULL` (`none`).  `alloc = false` models the failure of
the first allocation (array or part), after which the code frees everything
and reports `NULL` with count 0. -/
def string_split (alloc : Bool) (s : string) (delim : List Nat) :
    Option (List (Option string)) × Nat :=
  if s.length = 0 then (none, 0)
  else if delim.length = 0 then (none, 0)
  else
    let cont := s.buf.take s.length
    let num_splits := 1 + count_occ (s.length + 1) delim cont
    if alloc = false then (none, 0)
    else
      let fields := split_fields (s.length + 1) delim cont
      (some (fields.map (mkSplitPart alloc) ++
        List.replicate (num_splits - fields.length) none), num_splits)

/-- The overflow-checked total-length accumulation of `string_join`
(`string_lib.c` lines 602-616): each non-NULL part adds its length, plus
the delimiter length when the part is not in the last position; each
addition is checked with `__builtin_add_overflow`. -/
def join_total (dl : Nat) : List (Option string) → Nat → Option Nat
  | [], t => some t
  | none :: rest, t => join_total dl rest t
  | some q :: rest, t =>
    if 2 ^ 64 ≤ t + q.length then none
    else if rest.length ≠ 0 then
      if 2 ^ 64 ≤ t + q.length + dl then none
      else join_total dl rest (t + q.length + dl)
    else join_total dl rest (t + q.length)

/-- The append loop of `string_join` (`string_lib.c` lines 621-632):
append each non-NULL part, and the delimiter after any non-NULL part that
is not in the last array position. -/
def join_loop (alloc : Bool) (delim : List Nat) :
    List (Option string) → string → Option string
  | [], acc => some acc
  | none :: rest, acc => join_loop alloc delim rest acc
  | some q :: rest, acc =>
    if (string_append alloc acc q).1 = false then none
    else
      if rest.length ≠ 0 then
        if (string_append_cstr alloc (string_append alloc acc q).2 delim).1 = false
        then none
        else join_loop alloc delim rest
          (string_append_cstr alloc (string_append alloc acc q).2 delim).2
      else join_loop alloc delim rest (string_append alloc acc q).2

/-- `string_join(strs, count, delim)` (`string_lib.c` lines 599-635), with
`count = parts.length`. -/
def string_join (alloc : Bool) (parts : List (Option string)) (delim : List Nat) :
    Option string :=
  if parts.length = 0 then none
  else
    match join_total delim.length parts 0 with
    | none => none
    | some total =>
      match string_with_capacity alloc (sz (total + 1)) with
      | none => none
      | some r => join_loop alloc delim parts r

/-- The in-place pass of `string_replace` for `new_len <= old_len`
(`string_lib.c` lines 656-689), over absolute buffer indices: `w` is
`write_pos - data`, `r` is `read_pos - data`, `len` is `end - data`.
Returns the final buffer and write offset. -/
def replace_shrink_loop (o n : List Nat) :
    Nat → List Nat → Nat → Nat → Nat → List Nat × Nat
  | 0, buf, w, _, _ => (buf, w)
  | fuel + 1, buf, w, r, len =>
    if r < len then
      match memmemIdx (extract buf r (len - r)) o with
      | none =>
        let rem := len - r
        ((if w ≠ r then blit buf w (extract buf r rem) else buf), w + rem)
      | some i =>
        let buf1 := if 0 < i ∧ w ≠ r then blit buf w (extract buf r i) else buf
        let buf2 := blit buf1 (w + i) n
        replace_shrink_loop o n fuel buf2 (w + i + n.length) (r + i + o.length) len
    else (buf, w)

/-- The backward pass of `string_replace` for `new_len > old_len`
(`string_lib.c` lines 714-733): `w` is `write_pos - data`, `r` is
`read_pos - data`; `memmem` is searched over `data[0..r)` (so it finds the
leftmost match, and the loop stops after processing it).  Returns the final
buffer and read offset. -/
def replace_grow_loop (o n : List Nat) :
    Nat → List Nat → Nat → Nat → Option Nat → List Nat × Nat
  | 0, buf, _, r, _ => (buf, r)
  | fuel + 1, buf, w, r, last =>
    if 0 < r then
      match memmemIdx (buf.take r) o with
      | none => (buf, r)
      | some m =>
        if some m = last then (buf, r)
        else
          let suffix_len := r - (m + o.length)
          let w1 := w - suffix_len
          let buf1 := blit buf w1 (extract buf (m + o.length) suffix_len)
          let w2 := w1 - n.length
          let buf2 := blit buf1 w2 n
          replace_grow_loop o n fuel buf2 w2 m (some m)
    else (buf, r)

/-- `string_replace(str, old_str, new_str)` (`string_lib.c` lines 637-741):
fail on an empty receiver; succeed immediately on an empty `old_str` or
when no occurrence exists; in-place pass when the replacement does not
grow; otherwise overflow-checked length computation, capacity reservation,
the backward pass, and the final (self-copy) `memmove`. -/
def string_replace (alloc : Bool) (s : string) (old_str new_str : List Nat) :
    Bool × string :=
  if s.length = 0 then (false, s)
  else if old_str.length = 0 then (true, s)
  else
    let cont := s.buf.take s.length
    let count := count_occ (s.length + 1) old_str cont
    if count = 0 then (true, s)
    else if new_str.length ≤ old_str.length then
      let p := replace_shrink_loop old_str new_str (s.length + 1) s.buf 0 0 s.length
      let s1 := { s with buf := setByte p.1 p.2 0, length := p.2 }
      if s1.is_small = false ∧ s1.length ≤ SSO_SIZE then (true, try_shrink_to_small s1)
      else (true, s1)
    else
      if 2 ^ 64 ≤ count * new_str.length then (false, s)
      else if 2 ^ 64 ≤ s.length + count * new_str.length then (false, s)
      else
        let t2 := s.length + count * new_str.length
        if t2 < sz (count * old_str.length) then (false, s)
        else
          let new_total := t2 - sz (count * old_str.length)
          match ensure_capacity alloc s (sz (new_total + 1)) with
          | (false, s1) => (false, s1)
          | (true, s1) =>
            let buf0 := setByte s1.buf new_total 0
            let p := replace_grow_loop old_str new_str (s.length + 1) buf0
              new_total s.length none
            let buf2 := if 0 < p.2 then blit p.1 0 (extract p.1 0 p.2) else p.1
            (true, { s1 with buf := buf2, length := new_total })

/-- The intermediate state `str` after the in-place pass and terminator
placement of the shrinking `string_replace` path (`string_lib.c` lines
691-694), named for reuse in the equations below. -/
def replace_shrink_s1 (o n : List Nat) (s : string) : string :=
  { s with
    buf := setByte (replace_shrink_loop o n (s.length + 1) s.buf 0 0 s.length).1
      (replace_shrink_loop o n (s.length + 1) s.buf 0 0 s.length).2 0,
    length := (replace_shrink_loop o n (s.length + 1) s.buf 0 0 s.length).2 }

/-- The backward-pass result of the growing `string_replace` path
(`string_lib.c` lines 714-733), named for reuse in the equations below. -/
def replace_grow_p (o n : List Nat) (s s1 : string) : List Nat × Nat :=
  replace_grow_loop o n (s.length + 1)
    (setByte s1.buf (s.length + count_occ (s.length + 1) o (content s) * n.length -
      sz (count_occ (s.length + 1) o (content s) * o.length)) 0)
    (s.length + count_occ (s.length + 1) o (content s) * n.length -
      sz (count_occ (s.length + 1) o (content s) * o.length)) s.length none

/-- The final state of the growing `string_replace` path after the
(self-copy) front `memmove` and the length update (`string_lib.c` lines
735-739). -/
def replace_grow_finish (o n : List Nat) (s s1 : string) : string :=
  { s1 with
    buf :=
      if 0 < (replace_grow_p o n s s1).2 then
        blit (replace_grow_p o n s s1).1 0
          (extract (replace_grow_p o n s s1).1 0 (replace_grow_p o n s s1).2)
      else (replace_grow_p o n s s1).1,
    length := s.length + count_occ (s.length + 1) o (content s) * n.length -
      sz (count_occ (s.length + 1) o (content s) * o.length) }

/-! ### Concrete reachable values used by the claim theorems -/

/-- The empty string produced by `string_new("")`. -/
def emptyS : string := { is_small := true, buf := List.replicate 24 0, length := 0 }

/-- The string produced by `string_new("aaa")`. -/
def aaaS : string :=
  { is_small := true, buf := [97, 97, 97] ++ List.replicate 21 0, length := 3 }

/-- The string produced by `string_new("ab")`. -/
def abS : string :=
  { is_small := true, buf := [97, 98] ++ List.replicate 22 0, length := 2 }

/-- The string produced by `string_new("abc")`. -/
def abcS : string :=
  { is_small := true, buf := [97, 98, 99] ++ List.replicate 21 0, length := 3 }

/-- The string produced by `string_new("a")`. -/
def aS : string :=
  { is_small := true, buf := [97] ++ List.replicate 23 0, length := 1 }

/-- The bytes of the C string `"  aaaaaaaaaaaaaaaaaaaaaaa"`: two spaces
followed by 23 letters. -/
def wsA23 : List Nat := [32, 32] ++ List.replicate 23 97

/-- The heap string produced by `string_new("  a…a")` (length 25, promoted
to a 64-byte heap buffer). -/
def heap25S : string :=
  { is_small := false, buf := ([32, 32] ++ List.replicate 23 97) ++ [0] ++ List.replicate 38 0,
    length := 25 }

/-- The inline string of 23 letters that `string_trim` demotes `heap25S`
to: its length equals the reported inline capacity `SSO_SIZE = 23`. -/
def small23S : string :=
  { is_small := true, buf := List.replicate 23 97 ++ [0], length := 23 }

/-- The string produced by `string_new("a,")`. -/
def aCommaS : string :=
  { is_small := true, buf := [97, 44] ++ List.replicate 22 0, length := 2 }

/-- The string with content bytes `97, 0, 98` (an embedded NUL), built by
two `string_append_char` calls on `aS`. -/
def a0bS : string :=
  { is_small := true, buf := [97, 0, 98, 0] ++ List.replicate 20 0, length := 3 }

/-- An empty well-formed heap string with capacity 64. -/
def heap64S : string := { is_small := false, buf := List.replicate 64 0, length := 0 }

/-- The string produced by `string_new("a,,b")` (spec Scenario 3). -/
def accbS : string :=
  { is_small := true, buf := [97, 44, 44, 98, 0] ++ List.replicate 19 0, length := 4 }

/-- A string whose `length` field is `2 ^ 63`.  The total-length
accumulation of `string_join` (`string_lib.c` lines 602-616) runs before
any buffer is touched and reads only the `length` fields, so two such
parts drive the `__builtin_add_overflow` check past `SIZE_MAX` exactly as
an array of many large parts does in C; the (here 1-byte) buffer is
irrelevant to that path. -/
def hugeS : string := { is_small := false, buf := [0], length := 2 ^ 63 }

/-! ### Specification-level definitions used to state the claims -/

/-- The observable value of a string: its content bytes and its length.
Representation (inline vs heap) and capacity are excluded. -/
def observe (s : string) : List Nat × Nat := (content s, s.length)

/-- Specification-level both-ends whitespace trim. -/
def trimFn (l : List Nat) : List Nat :=
  ((l.dropWhile isspaceB).reverse.dropWhile isspaceB).reverse

/-- Specification-level join content: each non-NULL part's content, with
the delimiter after any non-NULL part not in the last position. -/
def join_content (delim : List Nat) : List (Option string) → List Nat
  | [] => []
  | none :: rest => join_content delim rest
  | some q :: rest =>
    content q ++ (if rest.length ≠ 0 then delim else []) ++ join_content delim rest

/-- Whether the greedy non-overlapping delimiter scan of `r` has a match
ending exactly at the end of `r` (the string "ends with" the delimiter). -/
def ends_with_delim : Nat → List Nat → List Nat → Bool
  | 0, _, _ => false
  | fuel + 1, d, r =>
    match memmemIdx r d with
    | none => false
    | some i =>
      if (r.drop (i + d.length)).length = 0 then true
      else ends_with_delim fuel d (r.drop (i + d.length))

/-- Specification-level reconstruction of a split: the fields joined with
the delimiter strictly between consecutive fields. -/
def fields_join (d : List Nat) : List (List Nat) → List Nat
  | [] => []
  | b :: rest => b ++ (if rest.length = 0 then [] else d ++ fields_join d rest)

/-- A content byte list with no embedded NUL (every string built from C
string inputs satisfies this; `string_append_char` can break it). -/
def NulFree (s : string) : Prop := (0 : Nat) ∉ content s

/-- The mutating operations named by the invariant claim. -/
inductive Op where
  | set (cstr : List Nat)
  | append (other : string)
  | append_cstr (cstr : List Nat)
  | append_char (c : Nat)
  | clear
  | trim
  | replace (old_str new_str : List Nat)
  | to_upper
  | to_lower

/-- Apply a mutating operation; operations of C type `void` always report
success. -/
def applyOp (alloc : Bool) : Op → string → Bool × string
  | .set c, s => string_set alloc s c
  | .append o, s => string_append alloc s o
  | .append_cstr c, s => string_append_cstr alloc s c
  | .append_char c, s => string_append_char alloc s c
  | .clear, s => (true, string_clear s)
  | .trim, s => (true, string_trim alloc s)
  | .replace o n, s => string_replace alloc s o n
  | .to_upper, s => (true, string_to_upper s)
  | .to_lower, s => (true, string_to_lower s)

/-- Size side conditions for an operation: the `size_t` quantities the C
code computes unchecked stay below the point where the 64-byte capacity
rounding could wrap (cf. the C8 analysis).  Every physically realisable
call satisfies them. -/
def sizeOK : Op → string → Prop
  | .set c, _ => c.length + 65 ≤ 2 ^ 64
  | .append o, s => s.length + (cstrOf o).length + 65 ≤ 2 ^ 64
  | .append_cstr c, s => s.length + c.length + 65 ≤ 2 ^ 64
  | .append_char _, s => s.length + 66 ≤ 2 ^ 64
  | .clear, _ => True
  | .trim, _ => True
  | .replace o n, s =>
    s.length + count_occ (s.length + 1) o (content s) * n.length + 65 ≤ 2 ^ 64
  | .to_upper, _ => True
  | .to_lower, _ => True

/-! ### Helper lemmas: buffer primitives -/

theorem sz_eq_of_lt {n : Nat} (h : n < 2 ^ 64) : sz n = n := Nat.mod_eq_of_lt h

theorem blit_length (dst src : List Nat) (i : Nat) :
    (blit dst i src).length = dst.length := by
  simp [blit]; omega

theorem blit_eq_append (dst src : List Nat) (i : Nat) (h : i + src.length ≤ dst.length) :
    blit dst i src = dst.take i ++ src ++ dst.drop (i + src.length) := by
  unfold blit
  rw [List.take_of_length_le (show src.length ≤ dst.length - i by omega)]

theorem getElem?_blit_lt (dst src : List Nat) (i j : Nat) (h : j < i)
    (hle : i + src.length ≤ dst.length) :
    (blit dst i src)[j]? = dst[j]? := by
  rw [blit_eq_append dst src i hle]
  have l1 : (dst.take i ++ src).length = i + src.length := by
    simp [List.length_take]; omega
  rw [List.getElem?_append_left (by rw [l1]; omega)]
  rw [List.getElem?_append_left (by simp [List.length_take]; omega)]
  rw [List.getElem?_take_of_lt h]

theorem getElem?_blit_ge (dst src : List Nat) (i j : Nat) (h : i + src.length ≤ j)
    (hle : i + src.length ≤ dst.length) :
    (blit dst i src)[j]? = dst[j]? := by
  rw [blit_eq_append dst src i hle]
  have l1 : (dst.take i ++ src).length = i + src.length := by
    simp [List.length_take]; omega
  rw [List.getElem?_append_right (by rw [l1]; omega)]
  rw [l1, List.getElem?_drop]
  congr 1
  omega

theorem getElem?_blit_in (dst src : List Nat) (i j : Nat) (h1 : i ≤ j)
    (h2 : j < i + src.length) (hle : i + src.length ≤ dst.length) :
    (blit dst i src)[j]? = src[j - i]? := by
  rw [blit_eq_append dst src i hle]
  have l1 : (dst.take i ++ src).length = i + src.length := by
    simp [List.length_take]; omega
  rw [List.getElem?_append_left (by rw [l1]; omega)]
  rw [List.getElem?_append_right (by simp [List.length_take]; omega)]
  congr 1
  simp [List.length_take]
  omega

theorem take_blit_zero (dst src : List Nat) (h : src.length ≤ dst.length) :
    (blit dst 0 src).take src.length = src := by
  rw [blit_eq_append dst src 0 (by omega)]
  simp [List.take_left]

theorem resize_length (n : Nat) (l : List Nat) : (resize n l).length = n := by
  simp [resize]; omega

theorem take_resize (n k : Nat) (l : List Nat) (h1 : k ≤ n) (h2 : k ≤ l.length) :
    (resize n l).take k = l.take k := by
  unfold resize
  rw [List.take_append_of_le_length (by simp [List.length_take]; omega)]
  rw [List.take_take, Nat.min_eq_left h1]

theorem getElem?_resize (n j : Nat) (l : List Nat) (h1 : j < n) (h2 : j < l.length) :
    (resize n l)[j]? = l[j]? := by
  unfold resize
  rw [List.getElem?_append_left (by simp [List.length_take]; omega)]
  rw [List.getElem?_take_of_lt h1]

theorem setByte_length (l : List Nat) (i v : Nat) :
    (setByte l i v).length = l.length := by
  simp [setByte]

theorem take_setByte_le (l : List Nat) (i v k : Nat) (h : k ≤ i) :
    (setByte l i v).take k = l.take k := by
  unfold setByte
  rw [List.set_eq_take_append_cons_drop]
  split
  · rw [List.take_append_of_le_length (by simp [List.length_take]; omega)]
    rw [List.take_take, Nat.min_eq_left h]
  · rfl

theorem getElem?_setByte_self (l : List Nat) (i v : Nat) (h : i < l.length) :
    (setByte l i v)[i]? = some v := by
  simp [setByte, List.getElem?_set_self, h]

theorem getElem?_setByte_ne (l : List Nat) (i v j : Nat) (h : j ≠ i) :
    (setByte l i v)[j]? = l[j]? := by
  simp [setByte, List.getElem?_set_ne (by omega : i ≠ j)]

theorem extract_length_le (l : List Nat) (i n : Nat) : (extract l i n).length ≤ n := by
  simp [extract]

theorem extract_length (l : List Nat) (i n : Nat) (h : i + n ≤ l.length) :
    (extract l i n).length = n := by
  simp [extract]
  omega

/-! ### Helper lemmas: memmem -/

theorem memmem_go_eq_some (nee : List Nat) (l : List Nat) (k i : Nat)
    (h : memmem_go nee l k = some i) :
    ∃ d, i = k + d ∧ d ≤ l.length ∧ nee.isPrefixOf (l.drop d) = true ∧
      ∀ e, e < d → nee.isPrefixOf (l.drop e) = false := by
  induction l generalizing k with
  | nil =>
    by_cases hp : nee.isPrefixOf [] = true
    · have hik : k = i := by simpa [memmem_go, hp] using h
      exact ⟨0, by omega, by simp, hp, fun e he => absurd he (by omega)⟩
    · simp [memmem_go, hp] at h
  | cons c rest ih =>
    by_cases hp : nee.isPrefixOf (c :: rest) = true
    · have hik : k = i := by simpa [memmem_go, hp] using h
      exact ⟨0, by omega, by simp, hp, fun e he => absurd he (by omega)⟩
    · have hfalse : nee.isPrefixOf (c :: rest) = false := by
        cases hb : nee.isPrefixOf (c :: rest)
        · rfl
        · exact absurd hb hp
      have h2 : memmem_go nee rest (k + 1) = some i := by
        simpa [memmem_go, hp] using h
      obtain ⟨d, hd, hdl, hpre, hmin⟩ := ih (k + 1) h2
      refine ⟨d + 1, by omega, by simp; omega, hpre, ?_⟩
      intro e he
      cases e with
      | zero => exact hfalse
      | succ e => exact hmin e (by omega)

theorem memmem_go_eq_none (nee : List Nat) (l : List Nat) (k : Nat)
    (h : memmem_go nee l k = none) :
    ∀ d, nee.isPrefixOf (l.drop d) = false := by
  induction l generalizing k with
  | nil =>
    by_cases hp : nee.isPrefixOf [] = true
    · simp [memmem_go, hp] at h
    · intro d
      rw [List.drop_nil]
      cases hb : nee.isPrefixOf []
      · rfl
      · exact absurd hb hp
  | cons c rest ih =>
    by_cases hp : nee.isPrefixOf (c :: rest) = true
    · simp [memmem_go, hp] at h
    · have h2 : memmem_go nee rest (k + 1) = none := by
        simpa [memmem_go, hp] using h
      intro d
      cases d with
      | zero =>
        rw [List.drop_zero]
        cases hb : nee.isPrefixOf (c :: rest)
        · rfl
        · exact absurd hb hp
      | succ d => exact ih (k + 1) h2 d

theorem memmemIdx_some (hay nee : List Nat) (i : Nat) (h : memmemIdx hay nee = some i) :
    i ≤ hay.length ∧ nee.isPrefixOf (hay.drop i) = true ∧
      ∀ e, e < i → nee.isPrefixOf (hay.drop e) = false := by
  obtain ⟨d, hd, hdl, hpre, hmin⟩ := memmem_go_eq_some nee hay 0 i h
  have : i = d := by omega
  subst this
  exact ⟨hdl, hpre, hmin⟩

theorem memmemIdx_none (hay nee : List Nat) (h : memmemIdx hay nee = none) :
    ∀ d, nee.isPrefixOf (hay.drop d) = false :=
  memmem_go_eq_none nee hay 0 h

theorem memmemIdx_nil (r : List Nat) : memmemIdx r [] = some 0 := by
  cases r <;> simp [memmemIdx, memmem_go, List.isPrefixOf]

theorem isPrefixOf_length_le (a b : List Nat) (h : a.isPrefixOf b = true) :
    a.length ≤ b.length :=
  (List.isPrefixOf_iff_prefix.1 h).length_le

theorem isPrefixOf_eq_take (a b : List Nat) (h : a.isPrefixOf b = true) :
    b.take a.length = a :=
  (List.prefix_iff_eq_take.1 (List.isPrefixOf_iff_prefix.1 h)).symm

theorem memmemIdx_some_le (hay nee : List Nat) (i : Nat) (h : memmemIdx hay nee = some i) :
    i + nee.length ≤ hay.length := by
  obtain ⟨hi, hpre, -⟩ := memmemIdx_some hay nee i h
  have := isPrefixOf_length_le nee (hay.drop i) hpre
  simp [List.length_drop] at this
  omega

theorem memmemIdx_some_extract (hay nee : List Nat) (i : Nat)
    (h : memmemIdx hay nee = some i) : extract hay i nee.length = nee := by
  obtain ⟨-, hpre, -⟩ := memmemIdx_some hay nee i h
  exact isPrefixOf_eq_take nee (hay.drop i) hpre

/-! ### Helper lemmas: capacity growth -/

theorem grow_loop_ge_needed (fuel cap needed : Nat) :
    needed ≤ grow_loop fuel cap needed := by
  induction fuel generalizing cap with
  | zero => simp [grow_loop]
  | succ fuel ih =>
    unfold grow_loop
    split
    · split
      · exact ih (2 * cap)
      · exact Nat.le_refl needed
    · omega

theorem grow_loop_cases (fuel cap needed : Nat) :
    cap ≤ grow_loop fuel cap needed ∨ grow_loop fuel cap needed = needed := by
  induction fuel generalizing cap with
  | zero => exact Or.inr rfl
  | succ fuel ih =>
    unfold grow_loop
    split
    · split
      · rcases ih (2 * cap) with h | h
        · exact Or.inl (by omega)
        · exact Or.inr h
      · exact Or.inr rfl
    · exact Or.inl (Nat.le_refl cap)

theorem grow_loop_props (fuel cap needed : Nat) (h64 : 64 ∣ cap) (hlt : cap < 2 ^ 64) :
    (64 ∣ grow_loop fuel cap needed ∧ grow_loop fuel cap needed < 2 ^ 64) ∨
      grow_loop fuel cap needed = needed := by
  induction fuel generalizing cap with
  | zero => exact Or.inr rfl
  | succ fuel ih =>
    unfold grow_loop
    split
    · split
      · exact ih (2 * cap) (Dvd.dvd.mul_left h64 2) (by omega)
      · exact Or.inr rfl
    · exact Or.inl ⟨h64, hlt⟩

theorem dvd64_le (n : Nat) (h64 : 64 ∣ n) (hlt : n < 2 ^ 64) : n ≤ 2 ^ 64 - 64 := by
  obtain ⟨k, rfl⟩ := h64
  omega

theorem round64_eq (x : Nat) (h : x + 63 < 2 ^ 64) :
    round64 x = (x + 63) / 64 * 64 := by
  unfold round64 sz
  rw [Nat.mod_eq_of_lt h]

theorem round64_ge (x : Nat) (h : x + 63 < 2 ^ 64) : x ≤ round64 x := by
  rw [round64_eq x h]
  have h1 := Nat.div_add_mod (x + 63) 64
  have h2 : (x + 63) % 64 < 64 := Nat.mod_lt _ (by omega)
  omega

theorem round64_le (x : Nat) (h : x + 63 < 2 ^ 64) : round64 x ≤ x + 63 := by
  rw [round64_eq x h]
  have h1 := Nat.div_add_mod (x + 63) 64
  omega

theorem round64_dvd (x : Nat) : 64 ∣ round64 x :=
  ⟨sz (x + 63) / 64, Nat.mul_comm _ _⟩

/-! ### Helper lemmas: well-formedness bookkeeping -/

theorem WF_length_buf (s : string) (hwf : WF s) : s.length + 1 ≤ s.buf.length := by
  obtain ⟨hsm, hh, -⟩ := hwf
  cases hs : s.is_small
  · exact (hh hs).2.2.2
  · have := hsm hs
    simp [SSO_SIZE] at this
    omega

theorem WF_cap_le_buf (s : string) (hwf : WF s) : STRING_CAPACITY s ≤ s.buf.length := by
  obtain ⟨hsm, hh, -⟩ := hwf
  unfold STRING_CAPACITY
  cases hs : s.is_small <;> simp [hs]
  have := hsm hs
  simp [SSO_SIZE] at this ⊢
  omega

theorem WF_len_le_cap (s : string) (hwf : WF s) : s.length ≤ STRING_CAPACITY s := by
  obtain ⟨hsm, hh, -⟩ := hwf
  unfold STRING_CAPACITY
  cases hs : s.is_small <;> simp [hs]
  · have := (hh hs).2.2.2; omega
  · exact (hsm hs).2

theorem WF_buf_le (s : string) (hwf : WF s) : s.buf.length ≤ 2 ^ 64 - 64 := by
  obtain ⟨hsm, hh, -⟩ := hwf
  cases hs : s.is_small
  · exact dvd64_le _ (Nat.dvd_of_mod_eq_zero (hh hs).2.1) (hh hs).2.2.1
  · have := (hsm hs).1
    simp [SSO_SIZE] at this
    omega

theorem WF_terminator (s : string) (hwf : WF s) : s.buf[s.length]? = some 0 :=
  hwf.2.2

theorem WF_mk_heap (b : List Nat) (len : Nat) (h64 : 64 ≤ b.length)
    (hdvd : b.length % 64 = 0) (hlt : b.length < 2 ^ 64) (hlen : len + 1 ≤ b.length)
    (hterm : b[len]? = some 0) :
    WF { is_small := false, buf := b, length := len } := by
  refine ⟨?_, ?_, ?_⟩
  · intro h
    exact absurd h (by simp)
  · intro _
    exact ⟨h64, hdvd, hlt, hlen⟩
  · exact hterm

theorem WF_mk_small (b : List Nat) (len : Nat) (h24 : b.length = SSO_SIZE + 1)
    (hlen : len ≤ SSO_SIZE) (hterm : b[len]? = some 0) :
    WF { is_small := true, buf := b, length := len } := by
  refine ⟨?_, ?_, ?_⟩
  · intro _
    exact ⟨h24, hlen⟩
  · intro h
    exact absurd h (by simp)
  · exact hterm

/-! ### Helper lemmas: whitespace trimming -/

theorem takeWhile_add_dropWhile_length (p : Nat → Bool) (l : List Nat) :
    (l.takeWhile p).length + (l.dropWhile p).length = l.length := by
  conv_rhs => rw [← List.takeWhile_append_dropWhile p l]
  rw [List.length_append]

theorem takeWhile_length_le (p : Nat → Bool) (l : List Nat) :
    (l.takeWhile p).length ≤ l.length := by
  have := takeWhile_add_dropWhile_length p l
  omega

theorem dropWhile_eq_drop (p : Nat → Bool) (l : List Nat) :
    l.dropWhile p = l.drop (l.takeWhile p).length := by
  induction l with
  | nil => rfl
  | cons x xs ih =>
    by_cases hp : p x = true
    · rw [List.dropWhile_cons, if_pos hp, List.takeWhile_cons, if_pos hp]
      rw [List.length_cons, List.drop_succ_cons]
      exact ih
    · rw [List.dropWhile_cons, if_neg hp, List.takeWhile_cons, if_neg hp]
      rfl

theorem dropWhile_head_not (p : Nat → Bool) (l : List Nat) (x : Nat) (xs : List Nat)
    (h : l.dropWhile p = x :: xs) : p x = false := by
  induction l with
  | nil => exact absurd h (by simp)
  | cons y ys ih =>
    by_cases hp : p y = true
    · rw [List.dropWhile_cons, if_pos hp] at h
      exact ih h
    · rw [List.dropWhile_cons, if_neg hp] at h
      injection h with h1 h2
      subst h1
      cases hb : p y
      · rfl
      · exact absurd hb hp

theorem takeWhile_dropWhile_nil (p : Nat → Bool) (l : List Nat) :
    (l.dropWhile p).takeWhile p = [] := by
  cases h : l.dropWhile p with
  | nil => rfl
  | cons x xs =>
    rw [List.takeWhile_cons, if_neg (by rw [dropWhile_head_not p l x xs h]; simp)]

theorem trimFn_reverse (l : List Nat) :
    (trimFn l).reverse = (l.dropWhile isspaceB).reverse.dropWhile isspaceB := by
  unfold trimFn
  rw [List.reverse_reverse]

theorem trimFn_eq_take (l : List Nat) :
    trimFn l = (l.dropWhile isspaceB).take
      ((l.dropWhile isspaceB).length -
        ((l.dropWhile isspaceB).reverse.takeWhile isspaceB).length) := by
  have htwle : ((l.dropWhile isspaceB).reverse.takeWhile isspaceB).length ≤
      (l.dropWhile isspaceB).length := by
    have := takeWhile_length_le isspaceB (l.dropWhile isspaceB).reverse
    simpa using this
  have h1 : ((l.dropWhile isspaceB).take
        ((l.dropWhile isspaceB).length -
          ((l.dropWhile isspaceB).reverse.takeWhile isspaceB).length)).reverse =
      (l.dropWhile isspaceB).reverse.drop
        ((l.dropWhile isspaceB).length -
          ((l.dropWhile isspaceB).length -
            ((l.dropWhile isspaceB).reverse.takeWhile isspaceB).length)) :=
    List.reverse_take
  have h2 : (l.dropWhile isspaceB).length -
      ((l.dropWhile isspaceB).length -
        ((l.dropWhile isspaceB).reverse.takeWhile isspaceB).length) =
      ((l.dropWhile isspaceB).reverse.takeWhile isspaceB).length := by omega
  rw [h2] at h1
  unfold trimFn
  rw [dropWhile_eq_drop isspaceB (l.dropWhile isspaceB).reverse, ← h1,
    List.reverse_reverse]

theorem trimFn_length (l : List Nat) :
    (trimFn l).length = (l.dropWhile isspaceB).length -
      ((l.dropWhile isspaceB).reverse.takeWhile isspaceB).length := by
  rw [trimFn_eq_take, List.length_take]
  omega

theorem dropWhile_getElem?_zero_not (p : Nat → Bool) (l : List Nat) (x : Nat)
    (h : (l.dropWhile p)[0]? = some x) : p x = false := by
  cases hd : l.dropWhile p with
  | nil => rw [hd] at h; exact absurd h (by simp)
  | cons y ys =>
    rw [hd] at h
    simp at h
    subst h
    exact dropWhile_head_not p l y ys hd

theorem trimFn_getElem?_zero_not (l : List Nat) (x : Nat)
    (h : (trimFn l)[0]? = some x) : isspaceB x = false := by
  rw [trimFn_eq_take] at h
  by_cases hk : (l.dropWhile isspaceB).length -
      ((l.dropWhile isspaceB).reverse.takeWhile isspaceB).length = 0
  · rw [hk] at h
    exact absurd h (by simp)
  · rw [List.getElem?_take_of_lt (by omega)] at h
    exact dropWhile_getElem?_zero_not isspaceB l x h

theorem takeWhile_nil_of_head (p : Nat → Bool) (l : List Nat)
    (h : ∀ x, l[0]? = some x → p x = false) : l.takeWhile p = [] := by
  cases l with
  | nil => rfl
  | cons x xs =>
    rw [List.takeWhile_cons, if_neg (by rw [h x (by simp)]; simp)]

theorem trimFn_takeWhile_nil (l : List Nat) : (trimFn l).takeWhile isspaceB = [] :=
  takeWhile_nil_of_head isspaceB (trimFn l) (fun x hx => trimFn_getElem?_zero_not l x hx)

theorem trimFn_reverse_takeWhile_nil (l : List Nat) :
    (trimFn l).reverse.takeWhile isspaceB = [] := by
  rw [trimFn_reverse]
  exact takeWhile_dropWhile_nil isspaceB (l.dropWhile isspaceB).reverse

theorem trimFn_length_le (l : List Nat) : (trimFn l).length ≤ l.length := by
  rw [trimFn_length]
  have h1 := takeWhile_add_dropWhile_length isspaceB l
  omega

theorem content_length (s : string) (hwf : WF s) : (content s).length = s.length := by
  unfold content
  rw [List.length_take]
  exact Nat.min_eq_left (by have := WF_length_buf s hwf; omega)

theorem trim_new_length_eq (s : string) (hwf : WF s) :
    trim_new_length s = (trimFn (content s)).length := by
  have hc : s.buf.take s.length = content s := rfl
  have hcl := content_length s hwf
  unfold trim_new_length trim_ls
  rw [hc]
  by_cases hall : ((content s).takeWhile isspaceB).length = s.length
  · rw [if_pos hall, trimFn_length]
    have hA := takeWhile_add_dropWhile_length isspaceB (content s)
    omega
  · rw [if_neg hall, trimFn_length, dropWhile_eq_drop isspaceB (content s),
      List.length_drop, hcl]

theorem trim_ls_le (s : string) (hwf : WF s) : trim_ls s ≤ s.length := by
  have hcl := content_length s hwf
  have := takeWhile_length_le isspaceB (content s)
  unfold trim_ls
  have hc : s.buf.take s.length = content s := rfl
  rw [hc]
  omega

theorem trim_new_length_add_ls_le (s : string) (hwf : WF s) :
    trim_new_length s + trim_ls s ≤ s.length := by
  have hc : s.buf.take s.length = content s := rfl
  have hcl := content_length s hwf
  have hA := takeWhile_add_dropWhile_length isspaceB (content s)
  rw [trim_new_length_eq s hwf, trimFn_length, dropWhile_eq_drop isspaceB (content s),
    List.length_drop, hcl]
  unfold trim_ls
  rw [hc]
  omega

theorem trim_new_length_le (s : string) (hwf : WF s) : trim_new_length s ≤ s.length := by
  have := trim_new_length_add_ls_le s hwf
  omega

theorem trim_trimmed_eq (s : string) (hwf : WF s) :
    trim_trimmed s = trimFn (content s) := by
  have hc : s.buf.take s.length = content s := rfl
  have h1 : trimFn (content s) =
      ((content s).dropWhile isspaceB).take ((trimFn (content s)).length) := by
    rw [trimFn_length]
    exact trimFn_eq_take (content s)
  unfold trim_trimmed trim_ls
  rw [hc, trim_new_length_eq s hwf]
  conv_rhs => rw [h1, dropWhile_eq_drop]

theorem WF_update (s : string) (hwf : WF s) (b : List Nat) (NL : Nat)
    (hblen : b.length = s.buf.length) (hle : NL ≤ s.length) :
    WF { is_small := s.is_small, buf := setByte b NL 0, length := NL } := by
  have hlb := WF_length_buf s hwf
  refine ⟨?_, ?_, ?_⟩
  · intro h
    obtain ⟨h1, h2⟩ := hwf.1 h
    refine ⟨?_, ?_⟩
    · show (setByte b NL 0).length = SSO_SIZE + 1
      rw [setByte_length, hblen]
      exact h1
    · show NL ≤ SSO_SIZE
      omega
  · intro h
    obtain ⟨h1, h2, h3, h4⟩ := hwf.2.1 h
    refine ⟨?_, ?_, ?_, ?_⟩
    · show 64 ≤ (setByte b NL 0).length
      rw [setByte_length, hblen]
      exact h1
    · show (setByte b NL 0).length % 64 = 0
      rw [setByte_length, hblen]
      exact h2
    · show (setByte b NL 0).length < 2 ^ 64
      rw [setByte_length, hblen]
      exact h3
    · show NL + 1 ≤ (setByte b NL 0).length
      rw [setByte_length, hblen]
      omega
  · show (setByte b NL 0)[NL]? = some 0
    exact getElem?_setByte_self b NL 0 (by omega)

theorem WF_resize_heap (t : string) (hwf : WF t) (hsmall : t.is_small = false)
    (n : Nat) (h64 : 64 ≤ n) (hdvd : n % 64 = 0) (hlt : n < 2 ^ 64)
    (hlen : t.length + 1 ≤ n) :
    WF { is_small := t.is_small, buf := resize n t.buf, length := t.length } := by
  have hlb := WF_length_buf t hwf
  refine ⟨?_, ?_, ?_⟩
  · intro h
    exact absurd (hsmall.symm.trans h) (by simp)
  · intro _
    refine ⟨?_, ?_, ?_, ?_⟩
    · show 64 ≤ (resize n t.buf).length
      rw [resize_length]
      exact h64
    · show (resize n t.buf).length % 64 = 0
      rw [resize_length]
      exact hdvd
    · show (resize n t.buf).length < 2 ^ 64
      rw [resize_length]
      exact hlt
    · show t.length + 1 ≤ (resize n t.buf).length
      rw [resize_length]
      exact hlen
  · show (resize n t.buf)[t.length]? = some 0
    rw [getElem?_resize _ _ _ (by omega) (by omega)]
    exact WF_terminator t hwf

theorem trim_s2_spec (s : string) (hwf : WF s) (h0 : s.length ≠ 0) :
    content (trim_s2 s) = trimFn (content s) ∧
    (trim_s2 s).length = (trimFn (content s)).length ∧
    WF (trim_s2 s) ∧
    (trim_new_length s ≤ SSO_SIZE → (trim_s2 s).is_small = true) := by
  have hNL := trim_new_length_eq s hwf
  have hT := trim_trimmed_eq s hwf
  have hTlen : (trim_trimmed s).length = trim_new_length s := by
    rw [hT, hNL]
  have hNLle := trim_new_length_le s hwf
  have hlb := WF_length_buf s hwf
  by_cases hdem : s.is_small = false ∧ trim_new_length s ≤ SSO_SIZE
  · have heq : trim_s2 s =
        { is_small := true,
          buf := setByte (resize (SSO_SIZE + 1) (trim_trimmed s ++ [0]))
            (trim_new_length s) 0,
          length := trim_new_length s } := by
      unfold trim_s2 trim_s1
      rw [if_pos hdem]
    rw [heq]
    have hres : (resize (SSO_SIZE + 1) (trim_trimmed s ++ [0])).take (trim_new_length s) =
        trim_trimmed s := by
      rw [take_resize _ _ _ (by simp [SSO_SIZE] at hdem ⊢; omega)
        (by rw [List.length_append, hTlen]; omega)]
      rw [← hTlen]
      exact List.take_left _ _
    refine ⟨?_, hNL, ?_, fun _ => rfl⟩
    · show (setByte (resize (SSO_SIZE + 1) (trim_trimmed s ++ [0]))
        (trim_new_length s) 0).take (trim_new_length s) = trimFn (content s)
      rw [take_setByte_le _ _ _ _ (Nat.le_refl _), hres, hT]
    · refine WF_mk_small _ _ ?_ ?_ ?_
      · rw [setByte_length, resize_length]
      · exact hdem.2
      · exact getElem?_setByte_self _ _ _
          (by rw [resize_length]; simp [SSO_SIZE] at hdem ⊢; omega)
  · have hsm : trim_new_length s ≤ SSO_SIZE → s.is_small = true := by
      intro hle
      cases hb : s.is_small
      · exact absurd ⟨hb, hle⟩ hdem
      · rfl
    by_cases hls : 0 < trim_ls s
    · have hext : extract s.buf (trim_ls s) (trim_new_length s) = trim_trimmed s := by
        have hadd := trim_new_length_add_ls_le s hwf
        unfold extract trim_trimmed
        rw [List.drop_take, List.take_take]
        rw [Nat.min_eq_left (by omega)]
      have heq : trim_s2 s =
          { is_small := s.is_small,
            buf := setByte (blit s.buf 0 (trim_trimmed s)) (trim_new_length s) 0,
            length := trim_new_length s } := by
        unfold trim_s2 trim_s1
        rw [if_neg hdem, if_pos hls, hext]
      rw [heq]
      refine ⟨?_, hNL, ?_, fun h => hsm h⟩
      · show (setByte (blit s.buf 0 (trim_trimmed s)) (trim_new_length s) 0).take
          (trim_new_length s) = trimFn (content s)
        rw [take_setByte_le _ _ _ _ (Nat.le_refl _)]
        have hb := take_blit_zero s.buf (trim_trimmed s) (by omega)
        rw [hTlen] at hb
        rw [hb, hT]
      · exact WF_update s hwf _ _ (by rw [blit_length]) hNLle
    · have heq : trim_s2 s =
          { is_small := s.is_small,
            buf := setByte s.buf (trim_new_length s) 0,
            length := trim_new_length s } := by
        unfold trim_s2 trim_s1
        rw [if_neg hdem, if_neg hls]
      rw [heq]
      have hls0 : trim_ls s = 0 := by omega
      refine ⟨?_, hNL, ?_, fun h => hsm h⟩
      · show (setByte s.buf (trim_new_length s) 0).take (trim_new_length s) =
          trimFn (content s)
        rw [take_setByte_le _ _ _ _ (Nat.le_refl _)]
        rw [← hT]
        unfold trim_trimmed
        rw [hls0, List.drop_zero, List.take_take]
        rw [Nat.min_eq_left hNLle]
      · exact WF_update s hwf _ _ rfl hNLle

theorem string_trim_spec (alloc : Bool) (s : string) (hwf : WF s) :
    content (string_trim alloc s) = trimFn (content s) ∧
    (string_trim alloc s).length = (trimFn (content s)).length ∧
    WF (string_trim alloc s) ∧
    (0 < s.length → (string_trim alloc s).length ≤ SSO_SIZE →
      (string_trim alloc s).is_small = true) := by
  by_cases h0 : s.length = 0
  · have heq : string_trim alloc s = s := by
      unfold string_trim
      rw [if_pos h0]
    rw [heq]
    have hc0 : content s = [] := by
      unfold content
      rw [h0, List.take_zero]
    rw [hc0]
    exact ⟨rfl, by rw [h0]; rfl, hwf, fun hp _ => absurd hp (by omega)⟩
  · obtain ⟨hcnt, hlen, hwf2, hsm⟩ := trim_s2_spec s hwf h0
    have hlen2 : (trim_s2 s).length = trim_new_length s := rfl
    unfold string_trim
    rw [if_neg h0]
    by_cases hsh : (trim_s2 s).is_small = false ∧
        sz (2 * trim_new_length s) < (trim_s2 s).buf.length ∧
        SSO_SIZE < trim_new_length s ∧ trim_new_length s < 1024
    · rw [if_pos hsh]
      obtain ⟨hsh1, hsh2, hsh3, hsh4⟩ := hsh
      cases alloc
      · rw [if_neg (by simp)]
        exact ⟨hcnt, hlen, hwf2, fun _ h => hsm h⟩
      · rw [if_pos rfl]
        have hsz2 : sz (2 * trim_new_length s) = 2 * trim_new_length s :=
          sz_eq_of_lt (by simp [SSO_SIZE] at hsh3; omega)
        have hwrap : 2 * trim_new_length s + 63 < 2 ^ 64 := by
          simp [SSO_SIZE] at hsh3
          omega
        have hge : 2 * trim_new_length s ≤ round64 (sz (2 * trim_new_length s)) := by
          rw [hsz2]
          exact round64_ge _ hwrap
        have hle63 : round64 (sz (2 * trim_new_length s)) ≤ 2 * trim_new_length s + 63 := by
          rw [hsz2]
          exact round64_le _ hwrap
        have hdvd : 64 ∣ round64 (sz (2 * trim_new_length s)) := round64_dvd _
        have h64 : 64 ≤ round64 (sz (2 * trim_new_length s)) := by
          rcases hdvd with ⟨k, hk⟩
          simp [SSO_SIZE] at hsh3
          omega
        have hlenb := WF_length_buf (trim_s2 s) hwf2
        refine ⟨?_, hlen, ?_, fun _ h => ?_⟩
        · show (resize (round64 (sz (2 * trim_new_length s))) (trim_s2 s).buf).take
            (trim_s2 s).length = trimFn (content s)
          rw [take_resize _ _ _ (by rw [hlen2]; simp [SSO_SIZE] at hsh3; omega) (by omega)]
          exact hcnt
        · exact WF_resize_heap (trim_s2 s) hwf2 hsh1 _ h64
            (by rcases hdvd with ⟨k, hk⟩; omega) (by simp [SSO_SIZE] at hsh3; omega)
            (by rw [hlen2]; simp [SSO_SIZE] at hsh3; omega)
        · rw [hlen2] at h
          exact absurd h (by omega)
    · rw [if_neg hsh]
      exact ⟨hcnt, hlen, hwf2, fun _ h => hsm h⟩

/-! ### Helper lemmas: C strings and padding -/

theorem WF_mk (b0 : Bool) (b : List Nat) (len : Nat)
    (hsm : b0 = true → b.length = SSO_SIZE + 1 ∧ len ≤ SSO_SIZE)
    (hh : b0 = false →
      64 ≤ b.length ∧ b.length % 64 = 0 ∧ b.length < 2 ^ 64 ∧ len + 1 ≤ b.length)
    (hterm : b[len]? = some 0) :
    WF { is_small := b0, buf := b, length := len } :=
  ⟨fun h => hsm h, fun h => hh h, hterm⟩

theorem takeWhile_eq_take (p : Nat → Bool) :
    ∀ (l : List Nat) (n : Nat), (∀ b ∈ l.take n, p b = true) →
      (∀ v, l[n]? = some v → p v = false) → l.takeWhile p = l.take n
  | [], n, _, _ => by simp
  | x :: xs, 0, _, hstop => by
    rw [List.take_zero, List.takeWhile_cons, if_neg (by rw [hstop x (by simp)]; simp)]
  | x :: xs, n + 1, hmem, hstop => by
    rw [List.take_cons_succ, List.takeWhile_cons,
      if_pos (hmem x (by rw [List.take_cons_succ]; exact List.mem_cons_self x _))]
    rw [takeWhile_eq_take p xs n
      (fun b hb => hmem b (by rw [List.take_cons_succ]; exact List.mem_cons_of_mem x hb))
      (fun v hv => hstop v (by simpa using hv))]

theorem cstrOf_eq_content (q : string) (hwf : WF q) (hnf : NulFree q) :
    cstrOf q = content q := by
  unfold cstrOf content
  refine takeWhile_eq_take _ q.buf q.length ?_ ?_
  · intro b hb
    have : b ∈ content q := hb
    have hb0 : b ≠ 0 := fun h => hnf (h ▸ this)
    simpa using hb0
  · intro v hv
    have := WF_terminator q hwf
    rw [this] at hv
    injection hv with hv
    subst hv
    simp

theorem ensure_capacity_true_succeeds (s : string) (needed : Nat) :
    (ensure_capacity true s needed).1 = true := by
  unfold ensure_capacity convert_to_heap
  by_cases h1 : needed ≤ STRING_CAPACITY s
  · rw [if_pos h1]
  · rw [if_neg h1]
    by_cases h2 : s.is_small = true
    · rw [if_pos h2, if_neg (by rw [h2]; simp), if_pos rfl]
    · rw [if_neg h2, if_pos rfl]

theorem string_with_capacity_true_spec (n : Nat) (hn : n + 64 ≤ 2 ^ 64) :
    ∃ r, string_with_capacity true n = some r ∧ WF r ∧ r.length = 0 ∧
      content r = [] ∧ n ≤ r.buf.length := by
  unfold string_with_capacity
  by_cases hsm : n ≤ SSO_SIZE
  · rw [if_pos hsm]
    refine ⟨_, rfl, ?_, rfl, by simp [content], by simp [SSO_SIZE] at hsm ⊢; omega⟩
    refine WF_mk true _ 0 (fun _ => ⟨by simp, by simp⟩) (by simp) ?_
    simp
  · rw [if_neg hsm, if_pos rfl]
    have h24 : 24 ≤ n := by simp [SSO_SIZE] at hsm; omega
    have hwrap : n + 63 < 2 ^ 64 := by omega
    have hge := round64_ge n hwrap
    have hle := round64_le n hwrap
    have hdvd := round64_dvd n
    have h64 : 64 ≤ round64 n := by
      rcases hdvd with ⟨k, hk⟩
      omega
    refine ⟨_, rfl, ?_, rfl, ?_, ?_⟩
    · refine WF_mk false _ 0 (by simp) (fun _ => ?_) ?_
      · rw [resize_length]
        exact ⟨h64, by rcases hdvd with ⟨k, hk⟩; omega, by omega, by omega⟩
      · rw [getElem?_resize _ _ _ (by omega) (by simp)]
        rfl
    · simp [content]
    · rw [resize_length]
      omega

/-! ### The ensure_capacity contract -/

theorem ensure_capacity_spec (alloc : Bool) (s : string) (needed : Nat) (hwf : WF s)
    (hn : needed + 64 ≤ 2 ^ 64) :
    ((ensure_capacity alloc s needed).1 = false → ensure_capacity alloc s needed = (false, s)) ∧
    (needed ≤ STRING_CAPACITY s → ensure_capacity alloc s needed = (true, s)) ∧
    STRING_CAPACITY s ≤ STRING_CAPACITY (ensure_capacity alloc s needed).2 ∧
    ((ensure_capacity alloc s needed).1 = true →
      WF (ensure_capacity alloc s needed).2 ∧
      (ensure_capacity alloc s needed).2.length = s.length ∧
      needed ≤ (ensure_capacity alloc s needed).2.buf.length ∧
      (ensure_capacity alloc s needed).2.buf.take (s.length + 1) =
        s.buf.take (s.length + 1)) := by
  by_cases hcap : needed ≤ STRING_CAPACITY s
  · have heq : ensure_capacity alloc s needed = (true, s) := by
      unfold ensure_capacity
      rw [if_pos hcap]
    rw [heq]
    refine ⟨by intro h; exact absurd h (by simp), fun _ => rfl, Nat.le_refl _, fun _ => ?_⟩
    exact ⟨hwf, rfl, Nat.le_trans hcap (WF_cap_le_buf s hwf), rfl⟩
  · cases hs : s.is_small with
    | true =>
      have hsso : s.buf.length = 24 ∧ s.length ≤ 23 := by
        have := hwf.1 hs
        simpa [SSO_SIZE] using this
      have hneed24 : 24 ≤ needed := by
        simp [STRING_CAPACITY, hs, SSO_SIZE] at hcap
        omega
      cases alloc with
      | false =>
        have heq : ensure_capacity false s needed = (false, s) := by
          unfold ensure_capacity convert_to_heap
          rw [if_neg hcap, if_pos hs, if_neg (by rw [hs]; simp), if_neg (by simp)]
        rw [heq]
        exact ⟨fun _ => rfl, fun h => absurd h hcap, Nat.le_refl _,
          by intro h; exact absurd h (by simp)⟩
      | true =>
        have heq : ensure_capacity true s needed =
            (true, { is_small := false,
                     buf := resize (round64 needed) (s.buf.take (s.length + 1)),
                     length := s.length }) := by
          unfold ensure_capacity convert_to_heap
          rw [if_neg hcap, if_pos hs, if_neg (by rw [hs]; simp), if_pos rfl]
        rw [heq]
        have hwrap : needed + 63 < 2 ^ 64 := by omega
        have hge : needed ≤ round64 needed := round64_ge needed hwrap
        have hle63 : round64 needed ≤ needed + 63 := round64_le needed hwrap
        have hdvd : 64 ∣ round64 needed := round64_dvd needed
        have h64 : 64 ≤ round64 needed := by
          rcases hdvd with ⟨k, hk⟩
          omega
        have hterm := WF_terminator s hwf
        refine ⟨by intro h; exact absurd h (by simp), fun h => absurd h hcap, ?_, fun _ => ?_⟩
        · simp [STRING_CAPACITY, hs, resize_length, SSO_SIZE]
          omega
        · refine ⟨?_, rfl, ?_, ?_⟩
          · refine WF_mk_heap _ _ ?_ ?_ ?_ ?_ ?_
            · rw [resize_length]; omega
            · rw [resize_length]; omega
            · rw [resize_length]; omega
            · rw [resize_length]; omega
            · rw [getElem?_resize _ _ _ (by omega) (by simp [List.length_take]; omega)]
              rw [List.getElem?_take_of_lt (by omega)]
              exact hterm
          · show needed ≤ (resize (round64 needed) (s.buf.take (s.length + 1))).length
            rw [resize_length]
            omega
          · show (resize (round64 needed) (s.buf.take (s.length + 1))).take (s.length + 1) =
              s.buf.take (s.length + 1)
            rw [take_resize _ _ _ (by omega) (by simp [List.length_take]; omega)]
            rw [List.take_take]
            simp
    | false =>
      have hterm := WF_terminator s hwf
      have hh := hwf.2.1
      obtain ⟨hc64, hcdvd, hclt, hlen1⟩ := hh hs
      have hglgen : needed ≤ grow_loop 65 s.buf.length needed :=
        grow_loop_ge_needed 65 s.buf.length needed
      have hglc : s.buf.length ≤ grow_loop 65 s.buf.length needed := by
        rcases grow_loop_cases 65 s.buf.length needed with h | h
        · exact h
        · rw [h]
          simp [STRING_CAPACITY, hs] at hcap
          omega
      have hglb : grow_loop 65 s.buf.length needed ≤ 2 ^ 64 - 64 := by
        rcases grow_loop_props 65 s.buf.length needed (Nat.dvd_of_mod_eq_zero hcdvd) hclt with
          ⟨hd, hl⟩ | h
        · exact dvd64_le _ hd hl
        · omega
      have hwrap : grow_loop 65 s.buf.length needed + 63 < 2 ^ 64 := by omega
      have hge := round64_ge _ hwrap
      have hle63 := round64_le _ hwrap
      have hdvd : 64 ∣ round64 (grow_loop 65 s.buf.length needed) := round64_dvd _
      have hns : ¬ (s.is_small = true) := by
        rw [hs]
        simp
      cases alloc with
      | false =>
        have heq : ensure_capacity false s needed = (false, s) := by
          unfold ensure_capacity
          rw [if_neg hcap, if_neg hns, if_neg (by simp)]
        rw [heq]
        exact ⟨fun _ => rfl, fun h => absurd h hcap, Nat.le_refl _,
          by intro h; exact absurd h (by simp)⟩
      | true =>
        have heq : ensure_capacity true s needed =
            (true, { is_small := false,
                     buf := resize (round64 (grow_loop 65 s.buf.length needed)) s.buf,
                     length := s.length }) := by
          unfold ensure_capacity
          rw [if_neg hcap, if_neg hns, if_pos rfl, hs]
        rw [heq]
        refine ⟨by intro h; exact absurd h (by simp), fun h => absurd h hcap, ?_, fun _ => ?_⟩
        · simp [STRING_CAPACITY, hs, resize_length]
          omega
        · refine ⟨?_, rfl, ?_, ?_⟩
          · refine WF_mk_heap _ _ ?_ ?_ ?_ ?_ ?_
            · rw [resize_length]; omega
            · rw [resize_length]; omega
            · rw [resize_length]; omega
            · rw [resize_length]; omega
            · rw [getElem?_resize _ _ _ (by omega) (by omega)]
              exact hterm
          · show needed ≤ (resize (round64 (grow_loop 65 s.buf.length needed)) s.buf).length
            rw [resize_length]
            omega
          · show (resize (round64 (grow_loop 65 s.buf.length needed)) s.buf).take (s.length + 1) =
              s.buf.take (s.length + 1)
            exact take_resize _ _ _ (by omega) (by omega)

theorem string_set_eq (alloc : Bool) (s : string) (c : List Nat) :
    string_set alloc s c =
      ((ensure_capacity alloc s (sz (c.length + 1))).1,
        if (ensure_capacity alloc s (sz (c.length + 1))).1 then
          { (ensure_capacity alloc s (sz (c.length + 1))).2 with
            buf := blit (ensure_capacity alloc s (sz (c.length + 1))).2.buf 0 (c ++ [0]),
            length := c.length }
        else (ensure_capacity alloc s (sz (c.length + 1))).2) := by
  have h : string_set alloc s c =
      match ensure_capacity alloc s (sz (c.length + 1)) with
      | (false, s1) => (false, s1)
      | (true, s1) =>
        (true, { s1 with buf := blit s1.buf 0 (c ++ [0]), length := c.length }) := rfl
  rw [h]
  rcases ensure_capacity alloc s (sz (c.length + 1)) with ⟨b1, s1⟩
  cases b1 <;> rfl

theorem string_append_cstr_eq (alloc : Bool) (s : string) (c : List Nat)
    (hne : ¬ c.length = 0) :
    string_append_cstr alloc s c =
      ((ensure_capacity alloc s (sz (s.length + c.length + 1))).1,
        if (ensure_capacity alloc s (sz (s.length + c.length + 1))).1 then
          { (ensure_capacity alloc s (sz (s.length + c.length + 1))).2 with
            buf := blit (ensure_capacity alloc s (sz (s.length + c.length + 1))).2.buf
              (ensure_capacity alloc s (sz (s.length + c.length + 1))).2.length (c ++ [0]),
            length := sz ((ensure_capacity alloc s
              (sz (s.length + c.length + 1))).2.length + c.length) }
        else (ensure_capacity alloc s (sz (s.length + c.length + 1))).2) := by
  have h : string_append_cstr alloc s c =
      if c.length = 0 then (true, s)
      else
        match ensure_capacity alloc s (sz (s.length + c.length + 1)) with
        | (false, s1) => (false, s1)
        | (true, s1) =>
        (true, { s1 with buf := blit s1.buf s1.length (c ++ [0]), length := sz (s1.length + c.length) }) := rfl
  rw [h, if_neg hne]
  rcases ensure_capacity alloc s (sz (s.length + c.length + 1)) with ⟨b1, s1⟩
  cases b1 <;> rfl

theorem string_append_char_eq (alloc : Bool) (s : string) (c : Nat) :
    string_append_char alloc s c =
      ((ensure_capacity alloc s (sz (s.length + 2))).1,
        if (ensure_capacity alloc s (sz (s.length + 2))).1 then
          { (ensure_capacity alloc s (sz (s.length + 2))).2 with
            buf := setByte (setByte (ensure_capacity alloc s (sz (s.length + 2))).2.buf
                (ensure_capacity alloc s (sz (s.length + 2))).2.length c)
              ((ensure_capacity alloc s (sz (s.length + 2))).2.length + 1) 0,
            length := sz ((ensure_capacity alloc s (sz (s.length + 2))).2.length + 1) }
        else (ensure_capacity alloc s (sz (s.length + 2))).2) := by
  have h : string_append_char alloc s c =
      match ensure_capacity alloc s (sz (s.length + 2)) with
      | (false, s1) => (false, s1)
      | (true, s1) =>
        (true, { s1 with buf := setByte (setByte s1.buf s1.length c) (s1.length + 1) 0, length := sz (s1.length + 1) }) := rfl
  rw [h]
  rcases ensure_capacity alloc s (sz (s.length + 2)) with ⟨b1, s1⟩
  cases b1 <;> rfl

theorem ensure_capacity_promotes (alloc : Bool) (s : string) (needed : Nat)
    (hcap : ¬ needed ≤ STRING_CAPACITY s)
    (h : (ensure_capacity alloc s needed).1 = true) :
    (ensure_capacity alloc s needed).2.is_small = false := by
  unfold ensure_capacity at h ⊢
  rw [if_neg hcap] at h ⊢
  by_cases hs : s.is_small = true
  · rw [if_pos hs] at h ⊢
    unfold convert_to_heap at h ⊢
    rw [if_neg (by rw [hs]; simp)] at h ⊢
    cases alloc
    · rw [if_neg (by simp)] at h
      exact absurd h (by simp)
    · rw [if_pos rfl]
  · rw [if_neg hs] at h ⊢
    have hs' : s.is_small = false := by
      cases hb : s.is_small
      · rfl
      · exact absurd hb hs
    cases alloc
    · rw [if_neg (by simp)] at h
      exact absurd h (by simp)
    · rw [if_pos rfl]
      exact hs'

/-! ### Append and join characterization -/

theorem string_append_cstr_true_spec (s : string) (c : List Nat) (hwf : WF s)
    (hb : s.length + c.length + 65 ≤ 2 ^ 64) :
    (string_append_cstr true s c).1 = true ∧
    content (string_append_cstr true s c).2 = content s ++ c ∧
    (string_append_cstr true s c).2.length = s.length + c.length ∧
    WF (string_append_cstr true s c).2 := by
  by_cases hc0 : c.length = 0
  · have hnil : c = [] := List.length_eq_zero.mp hc0
    subst hnil
    have heq : string_append_cstr true s [] = (true, s) := rfl
    rw [heq]
    exact ⟨rfl, by simp, by simp, hwf⟩
  · rw [string_append_cstr_eq true s c hc0]
    have hsz : sz (s.length + c.length + 1) = s.length + c.length + 1 :=
      sz_eq_of_lt (by omega)
    have hsucc : (ensure_capacity true s (sz (s.length + c.length + 1))).1 = true :=
      ensure_capacity_true_succeeds _ _
    obtain ⟨-, -, -, h4⟩ :=
      ensure_capacity_spec true s (sz (s.length + c.length + 1)) hwf (by rw [hsz]; omega)
    obtain ⟨hwf1, hlen1, hbuf1, hpres⟩ := h4 hsucc
    set E := (ensure_capacity true s (sz (s.length + c.length + 1))).2 with hE
    have hbuf1' : s.length + c.length + 1 ≤ E.buf.length :=
      le_trans (le_of_eq hsz.symm) hbuf1
    rw [if_pos hsucc]
    have hszlen : sz (E.length + c.length) = s.length + c.length := by
      rw [hlen1]
      exact sz_eq_of_lt (by omega)
    have hblitle : E.length + (c ++ [0]).length ≤ E.buf.length := by
      rw [hlen1, List.length_append]
      simp only [List.length_cons, List.length_nil]
      omega
    refine ⟨hsucc, ?_, hszlen, ?_⟩
    · show (blit E.buf E.length (c ++ [0])).take (sz (E.length + c.length)) =
        content s ++ c
      rw [hszlen, blit_eq_append _ _ _ hblitle, hlen1, List.append_assoc]
      have hAlen : (E.buf.take s.length).length = s.length := by
        rw [List.length_take]
        exact Nat.min_eq_left (by omega)
      rw [show s.length + c.length = (E.buf.take s.length).length + c.length by
        rw [hAlen]]
      rw [List.take_append]
      congr 1
      · have h2 := congrArg (List.take s.length) hpres
        rw [List.take_take, List.take_take, Nat.min_eq_left (by omega)] at h2
        exact h2
      · rw [List.append_assoc]
        exact List.take_left _ _
    · refine WF_mk _ _ _ ?_ ?_ ?_
      · intro h
        obtain ⟨h1, h2⟩ := hwf1.1 h
        constructor
        · rw [blit_length]
          exact h1
        · rw [hszlen]
          rw [h1] at hbuf1'
          show s.length + c.length ≤ 23
          simp [SSO_SIZE] at hbuf1'
          omega
      · intro h
        obtain ⟨h1, h2, h3, h4x⟩ := hwf1.2.1 h
        refine ⟨?_, ?_, ?_, ?_⟩
        · rw [blit_length]
          exact h1
        · rw [blit_length]
          exact h2
        · rw [blit_length]
          exact h3
        · rw [blit_length, hszlen]
          omega
      · rw [hszlen]
        rw [getElem?_blit_in _ _ _ _ (by omega)
          (by rw [hlen1]
              simp only [List.length_append, List.length_cons, List.length_nil]
              omega)
          hblitle]
        rw [hlen1]
        rw [show s.length + c.length - s.length = c.length by omega]
        rw [List.getElem?_append_right (by omega)]
        simp

theorem string_append_true_spec (s other : string) (hwf : WF s) (hwfo : WF other)
    (hnf : NulFree other) (hb : s.length + other.length + 65 ≤ 2 ^ 64) :
    (string_append true s other).1 = true ∧
    content (string_append true s other).2 = content s ++ content other ∧
    (string_append true s other).2.length = s.length + other.length ∧
    WF (string_append true s other).2 := by
  have hco := cstrOf_eq_content other hwfo hnf
  have hclen : (cstrOf other).length = other.length := by
    rw [hco]
    exact content_length other hwfo
  unfold string_append
  obtain ⟨h1, h2, h3, h4⟩ := string_append_cstr_true_spec s (cstrOf other) hwf
    (by rw [hclen]; omega)
  exact ⟨h1, h2.trans (by rw [hco]), h3.trans (by rw [hclen]), h4⟩

theorem join_total_cons_some (dl : Nat) (q : string) (rest : List (Option string))
    (t : Nat) :
    join_total dl (some q :: rest) t =
      if 2 ^ 64 ≤ t + q.length then none
      else if rest.length ≠ 0 then
        if 2 ^ 64 ≤ t + q.length + dl then none
        else join_total dl rest (t + q.length + dl)
      else join_total dl rest (t + q.length) := rfl

theorem join_loop_cons_some (alloc : Bool) (delim : List Nat) (q : string)
    (rest : List (Option string)) (acc : string) :
    join_loop alloc delim (some q :: rest) acc =
      if (string_append alloc acc q).1 = false then none
      else
        if rest.length ≠ 0 then
          if (string_append_cstr alloc (string_append alloc acc q).2 delim).1 = false
          then none
          else join_loop alloc delim rest
            (string_append_cstr alloc (string_append alloc acc q).2 delim).2
        else join_loop alloc delim rest (string_append alloc acc q).2 := rfl

theorem join_content_cons_some (delim : List Nat) (q : string)
    (rest : List (Option string)) :
    join_content delim (some q :: rest) =
      content q ++ (if rest.length ≠ 0 then delim else []) ++ join_content delim rest :=
  rfl

theorem join_total_of_le (delim : List Nat) :
    ∀ (parts : List (Option string)) (t : Nat),
      (∀ x, some x ∈ parts → WF x) →
      t + (join_content delim parts).length < 2 ^ 64 →
      join_total delim.length parts t =
        some (t + (join_content delim parts).length) := by
  intro parts
  induction parts with
  | nil => intro t _ _; simp [join_total, join_content]
  | cons hd rest ih =>
    intro t hmem hb
    cases hd with
    | none =>
      show join_total delim.length rest t = _
      rw [show join_content delim (none :: rest) = join_content delim rest from rfl] at hb ⊢
      exact ih t (fun x hx => hmem x (List.mem_cons_of_mem _ hx)) hb
    | some q =>
      have hq : WF q := hmem q (List.mem_cons_self _ _)
      have hql : (content q).length = q.length := content_length q hq
      rw [join_content_cons_some] at hb ⊢
      rw [join_total_cons_some]
      simp only [List.length_append] at hb ⊢
      rw [if_neg (by omega)]
      by_cases hrest : rest.length = 0
      · rw [if_neg (fun hc => hc hrest)]
        rw [if_neg (fun hc => hc hrest)] at hb ⊢
        have := ih (t + q.length) (fun x hx => hmem x (List.mem_cons_of_mem _ hx))
          (by simp at hb ⊢; omega)
        rw [this]
        simp
        omega
      · rw [if_pos hrest]
        rw [if_pos hrest] at hb ⊢
        rw [if_neg (by omega)]
        have := ih (t + q.length + delim.length)
          (fun x hx => hmem x (List.mem_cons_of_mem _ hx)) (by omega)
        rw [this]
        congr 1
        omega

theorem join_loop_spec (delim : List Nat) :
    ∀ (parts : List (Option string)) (acc : string),
      (∀ x, some x ∈ parts → WF x ∧ NulFree x) →
      WF acc →
      acc.length + (join_content delim parts).length + 65 ≤ 2 ^ 64 →
      ∃ r, join_loop true delim parts acc = some r ∧ WF r ∧
        content r = content acc ++ join_content delim parts ∧
        r.length = acc.length + (join_content delim parts).length := by
  intro parts
  induction parts with
  | nil =>
    intro acc _ hacc _
    exact ⟨acc, rfl, hacc, by simp [join_content], by simp [join_content]⟩
  | cons hd rest ih =>
    intro acc hmem hacc hb
    cases hd with
    | none =>
      show ∃ r, join_loop true delim rest acc = some r ∧ _
      rw [show join_content delim (none :: rest) = join_content delim rest from rfl] at hb ⊢
      exact ih acc (fun x hx => hmem x (List.mem_cons_of_mem _ hx)) hacc hb
    | some q =>
      obtain ⟨hq, hqn⟩ := hmem q (List.mem_cons_self _ _)
      have hql : (content q).length = q.length := content_length q hq
      rw [join_content_cons_some] at hb ⊢
      simp only [List.length_append] at hb ⊢
      obtain ⟨ha1, ha2, ha3, ha4⟩ := string_append_true_spec acc q hacc hq hqn
        (by by_cases hrest : rest.length = 0 <;>
            [rw [if_neg (fun hc => hc hrest)] at hb;
             rw [if_pos hrest] at hb] <;> simp at hb <;> omega)
      rw [join_loop_cons_some, if_neg (by rw [ha1]; simp)]
      by_cases hrest : rest.length = 0
      · rw [if_neg (fun hc => hc hrest)]
        rw [if_neg (fun hc => hc hrest)] at hb ⊢
        obtain ⟨r, hr1, hr2, hr3, hr4⟩ := ih (string_append true acc q).2
          (fun x hx => hmem x (List.mem_cons_of_mem _ hx)) ha4
          (by simp at hb ⊢; omega)
        refine ⟨r, hr1, hr2, ?_, ?_⟩
        · rw [hr3, ha2]
          simp
        · rw [hr4, ha3]
          simp
          omega
      · rw [if_pos hrest]
        rw [if_pos hrest] at hb ⊢
        obtain ⟨hd1, hd2, hd3, hd4⟩ :=
          string_append_cstr_true_spec (string_append true acc q).2 delim ha4
            (by rw [ha3]; omega)
        rw [if_neg (by rw [hd1]; simp)]
        obtain ⟨r, hr1, hr2, hr3, hr4⟩ :=
          ih (string_append_cstr true (string_append true acc q).2 delim).2
            (fun x hx => hmem x (List.mem_cons_of_mem _ hx)) hd4
            (by rw [hd3, ha3]; omega)
        refine ⟨r, hr1, hr2, ?_, ?_⟩
        · rw [hr3, hd2, ha2]
          simp [List.append_assoc]
        · rw [hr4, hd3, ha3]
          omega

/-! ### Split characterization -/

theorem split_fields_succ (fuel : Nat) (d r : List Nat) :
    split_fields (fuel + 1) d r =
      if r.length = 0 then []
      else
        match memmemIdx r d with
        | none => [r]
        | some i => r.take i :: split_fields fuel d (r.drop (i + d.length)) := rfl

theorem count_occ_succ (fuel : Nat) (d r : List Nat) :
    count_occ (fuel + 1) d r =
      match memmemIdx r d with
      | none => 0
      | some i => 1 + count_occ fuel d (r.drop (i + d.length)) := rfl

theorem fields_join_cons (d b : List Nat) (rest : List (List Nat)) :
    fields_join d (b :: rest) =
      b ++ (if rest.length = 0 then [] else d ++ fields_join d rest) := rfl

theorem split_fields_eq_none (fuel : Nat) (d r : List Nat) (hr : ¬ r.length = 0)
    (hm : memmemIdx r d = none) : split_fields (fuel + 1) d r = [r] := by
  rw [split_fields_succ, if_neg hr, hm]

theorem split_fields_eq_some (fuel : Nat) (d r : List Nat) (hr : ¬ r.length = 0)
    (i : Nat) (hm : memmemIdx r d = some i) :
    split_fields (fuel + 1) d r =
      r.take i :: split_fields fuel d (r.drop (i + d.length)) := by
  rw [split_fields_succ, if_neg hr, hm]

theorem count_occ_eq_none (fuel : Nat) (d r : List Nat)
    (hm : memmemIdx r d = none) : count_occ (fuel + 1) d r = 0 := by
  rw [count_occ_succ, hm]

theorem count_occ_eq_some (fuel : Nat) (d r : List Nat) (i : Nat)
    (hm : memmemIdx r d = some i) :
    count_occ (fuel + 1) d r = 1 + count_occ fuel d (r.drop (i + d.length)) := by
  rw [count_occ_succ, hm]

theorem memmemIdx_decomp (hay nee : List Nat) (i : Nat)
    (h : memmemIdx hay nee = some i) :
    hay = hay.take i ++ nee ++ hay.drop (i + nee.length) := by
  have hx := memmemIdx_some_extract hay nee i h
  rw [List.append_assoc]
  conv_lhs => rw [← List.take_append_drop i hay]
  congr 1
  conv_lhs => rw [← List.take_append_drop nee.length (hay.drop i)]
  congr 1
  rw [List.drop_drop, Nat.add_comm]

theorem split_fields_ne_nil (d r : List Nat) (fuel : Nat) (h0 : 0 < fuel)
    (hr : ¬ r.length = 0) : split_fields fuel d r ≠ [] := by
  cases fuel with
  | zero => omega
  | succ fuel =>
    rw [split_fields_succ, if_neg hr]
    cases h : memmemIdx r d <;> simp

theorem split_fields_mem_length (d : List Nat) :
    ∀ (fuel : Nat) (r b : List Nat), b ∈ split_fields fuel d r → b.length ≤ r.length := by
  intro fuel
  induction fuel with
  | zero => intro r b hb; simp [split_fields] at hb
  | succ fuel ih =>
    intro r b hb
    rw [split_fields_succ] at hb
    by_cases hr : r.length = 0
    · rw [if_pos hr] at hb
      simp at hb
    · rw [if_neg hr] at hb
      cases h : memmemIdx r d with
      | none =>
        rw [h] at hb
        simp at hb
        rw [hb]
      | some i =>
        rw [h] at hb
        rcases List.mem_cons.mp hb with hb1 | hb2
        · rw [hb1]
          simp [List.length_take]
        · have := ih (r.drop (i + d.length)) b hb2
          simp [List.length_drop] at this
          omega

theorem split_fields_spec (d : List Nat) (hd : ¬ d.length = 0) :
    ∀ (fuel : Nat) (r : List Nat), r.length < fuel → ¬ r.length = 0 →
      ((split_fields fuel d r).length = count_occ fuel d r + 1 ∧
        fields_join d (split_fields fuel d r) = r) ∨
      ((split_fields fuel d r).length = count_occ fuel d r ∧
        fields_join d (split_fields fuel d r) ++ d = r) := by
  intro fuel
  induction fuel with
  | zero => intro r hfuel _; omega
  | succ fuel ih =>
    intro r hfuel hr
    cases hm : memmemIdx r d with
    | none =>
      rw [split_fields_eq_none fuel d r hr hm, count_occ_eq_none fuel d r hm]
      left
      refine ⟨by simp, ?_⟩
      simp [fields_join]
    | some i =>
      rw [split_fields_eq_some fuel d r hr i hm, count_occ_eq_some fuel d r i hm]
      have hle := memmemIdx_some_le r d i hm
      have hdec := memmemIdx_decomp r d i hm
      have hr' : (r.drop (i + d.length)).length = r.length - (i + d.length) :=
        List.length_drop _ _
      by_cases hr0 : (r.drop (i + d.length)).length = 0
      · have hsf : split_fields fuel d (r.drop (i + d.length)) = [] := by
          cases fuel with
          | zero => rfl
          | succ fuel => rw [split_fields_succ, if_pos hr0]
        have hco : count_occ fuel d (r.drop (i + d.length)) = 0 := by
          cases fuel with
          | zero => rfl
          | succ fuel =>
            cases hm' : memmemIdx (r.drop (i + d.length)) d with
            | none => exact count_occ_eq_none fuel d _ hm'
            | some j =>
              have := memmemIdx_some_le _ d j hm'
              omega
        right
        rw [hsf, hco]
        refine ⟨by simp, ?_⟩
        rw [fields_join_cons]
        simp only [List.length_nil, eq_self_iff_true, if_true, List.append_nil]
        have hnil : r.drop (i + d.length) = [] := List.length_eq_zero.mp hr0
        rw [hnil, List.append_nil] at hdec
        exact hdec.symm
      · have hfuel' : (r.drop (i + d.length)).length < fuel := by omega
        rcases ih (r.drop (i + d.length)) hfuel' hr0 with ⟨hlen, hjoin⟩ | ⟨hlen, hjoin⟩
        · left
          constructor
          · simp only [List.length_cons, hlen]
            omega
          · rw [fields_join_cons,
              if_neg (by rw [hlen]; omega), hjoin]
            rw [List.append_assoc] at hdec
            exact hdec.symm
        · right
          have hfne : split_fields fuel d (r.drop (i + d.length)) ≠ [] :=
            split_fields_ne_nil d _ fuel (by omega) hr0
          have hfpos : 0 < (split_fields fuel d (r.drop (i + d.length))).length :=
            List.length_pos.mpr hfne
          constructor
          · simp only [List.length_cons, hlen]
            omega
          · rw [fields_join_cons, if_neg (by omega), List.append_assoc,
              List.append_assoc, hjoin]
            rw [List.append_assoc] at hdec
            exact hdec.symm

theorem string_split_eq (alloc : Bool) (s : string) (delim : List Nat)
    (h1 : ¬ s.length = 0) (h2 : ¬ delim.length = 0) :
    string_split alloc s delim =
      (if alloc = false then (none, 0)
       else
        (some ((split_fields (s.length + 1) delim (content s)).map (mkSplitPart alloc) ++
          List.replicate (1 + count_occ (s.length + 1) delim (content s) -
            (split_fields (s.length + 1) delim (content s)).length) none),
         1 + count_occ (s.length + 1) delim (content s))) := by
  have h : string_split alloc s delim =
      if s.length = 0 then (none, 0)
      else if delim.length = 0 then (none, 0)
      else if alloc = false then (none, 0)
      else
        (some ((split_fields (s.length + 1) delim (content s)).map (mkSplitPart alloc) ++
          List.replicate (1 + count_occ (s.length + 1) delim (content s) -
            (split_fields (s.length + 1) delim (content s)).length) none),
         1 + count_occ (s.length + 1) delim (content s)) := rfl
  rw [h, if_neg h1, if_neg h2]

theorem mkSplitPart_spec (b : List Nat) (hb : b.length + 65 ≤ 2 ^ 64) :
    ∃ p, mkSplitPart true b = some p ∧ WF p ∧ content p = b ∧ p.length = b.length := by
  have hsz : sz (b.length + 1) = b.length + 1 := sz_eq_of_lt (by omega)
  obtain ⟨r, hr, hrwf, hrlen, hrcont, hrbuf⟩ :=
    string_with_capacity_true_spec (sz (b.length + 1)) (by rw [hsz]; omega)
  have hble : b.length + 1 ≤ r.buf.length := le_trans (le_of_eq hsz.symm) hrbuf
  unfold mkSplitPart
  rw [hr]
  have hlen0 : (setByte (blit r.buf 0 b) b.length 0).length = r.buf.length := by
    rw [setByte_length, blit_length]
  refine ⟨_, rfl, ?_, ?_, rfl⟩
  · refine WF_mk _ _ _ ?_ ?_ ?_
    · intro h
      obtain ⟨hh1, -⟩ := hrwf.1 h
      refine ⟨by rw [hlen0]; exact hh1, ?_⟩
      rw [hh1] at hble
      show b.length ≤ 23
      simp [SSO_SIZE] at hble
      omega
    · intro h
      obtain ⟨hh1, hh2, hh3, -⟩ := hrwf.2.1 h
      rw [hlen0]
      exact ⟨hh1, hh2, hh3, hble⟩
    · show (setByte (blit r.buf 0 b) b.length 0)[b.length]? = some 0
      rw [getElem?_setByte_self]
      rw [blit_length]
      omega
  · show (setByte (blit r.buf 0 b) b.length 0).take b.length = b
    rw [take_setByte_le _ _ _ _ (le_refl b.length)]
    rw [blit_eq_append _ _ _ (by omega)]
    simp only [List.take_zero, List.nil_append]
    exact List.take_left _ _

/-! ### Well-formedness preservation of the mutating operations -/

theorem try_shrink_WF (t : string) (hwf : WF t) : WF (try_shrink_to_small t) := by
  unfold try_shrink_to_small
  by_cases h : t.is_small = true ∨ SSO_SIZE < t.length
  · rw [if_pos h]
    exact hwf
  · rw [if_neg h]
    push_neg at h
    obtain ⟨hns, hlen⟩ := h
    have hheap : t.is_small = false := by
      cases hb : t.is_small
      · rfl
      · exact absurd hb hns
    have hbl := (hwf.2.1 hheap).2.2.2
    refine WF_mk true _ t.length (fun _ => ⟨resize_length _ _, hlen⟩)
      (fun hff => absurd hff (by simp)) ?_
    rw [getElem?_resize _ _ _ (by simp [SSO_SIZE] at hlen ⊢; omega)
      (by rw [List.length_take]; omega)]
    rw [List.getElem?_take_of_lt (by omega)]
    exact hwf.2.2

theorem mapRange_length (f : Nat → Nat) (l : List Nat) (n : Nat) :
    (mapRange f l n).length = l.length := by
  simp [mapRange, List.length_take, List.length_drop]
  omega

theorem getElem?_mapRange_ge (f : Nat → Nat) (l : List Nat) (n j : Nat) (h : n ≤ j) :
    (mapRange f l n)[j]? = l[j]? := by
  unfold mapRange
  by_cases hl : n ≤ l.length
  · have hmlen : ((l.take n).map f).length = n := by
      rw [List.length_map, List.length_take]
      omega
    rw [List.getElem?_append_right (by rw [hmlen]; omega)]
    rw [hmlen, List.getElem?_drop]
    congr 1
    omega
  · have hmlen : ((l.take n).map f).length = l.length := by
      rw [List.length_map, List.length_take]
      omega
    rw [List.getElem?_append_right (by rw [hmlen]; omega)]
    rw [List.getElem?_eq_none (by rw [List.length_drop]; omega),
      List.getElem?_eq_none (by omega)]

theorem mapRange_step_WF (f : Nat → Nat) (s : string) (hwf : WF s) :
    WF { s with buf := mapRange f s.buf s.length } := by
  refine WF_mk _ _ _ ?_ ?_ ?_
  · intro h
    obtain ⟨h1, h2⟩ := hwf.1 h
    exact ⟨by rw [mapRange_length]; exact h1, h2⟩
  · intro h
    obtain ⟨h1, h2, h3, h4⟩ := hwf.2.1 h
    rw [mapRange_length]
    exact ⟨h1, h2, h3, h4⟩
  · show (mapRange f s.buf s.length)[s.length]? = some 0
    rw [getElem?_mapRange_ge _ _ _ _ (le_refl _)]
    exact hwf.2.2

theorem string_to_upper_WF (s : string) (hwf : WF s) :
    WF (string_to_upper s) ∧ (string_to_upper s).length = s.length := by
  unfold string_to_upper
  by_cases h0 : s.length = 0
  · rw [if_pos h0]
    exact ⟨hwf, rfl⟩
  · rw [if_neg h0]
    exact ⟨mapRange_step_WF toupperB s hwf, rfl⟩

theorem string_to_lower_WF (s : string) (hwf : WF s) :
    WF (string_to_lower s) ∧ (string_to_lower s).length = s.length := by
  unfold string_to_lower
  by_cases h0 : s.length = 0
  · rw [if_pos h0]
    exact ⟨hwf, rfl⟩
  · rw [if_neg h0]
    exact ⟨mapRange_step_WF tolowerB s hwf, rfl⟩

theorem string_clear_WF (s : string) (hwf : WF s) : WF (string_clear s) :=
  WF_update s hwf s.buf 0 rfl (Nat.zero_le _)

theorem count_occ_mul_le (d : List Nat) :
    ∀ (fuel : Nat) (r : List Nat), count_occ fuel d r * d.length ≤ r.length := by
  intro fuel
  induction fuel with
  | zero => intro r; simp [count_occ]
  | succ fuel ih =>
    intro r
    cases hm : memmemIdx r d with
    | none =>
      rw [count_occ_eq_none fuel d r hm]
      simp
    | some i =>
      rw [count_occ_eq_some fuel d r i hm]
      have hle := memmemIdx_some_le r d i hm
      have hrec := ih (r.drop (i + d.length))
      rw [List.length_drop] at hrec
      have hexp : (1 + count_occ fuel d (r.drop (i + d.length))) * d.length =
          d.length + count_occ fuel d (r.drop (i + d.length)) * d.length := by ring
      omega

theorem string_append_cstr_ok (alloc : Bool) (s : string) (c : List Nat) (hwf : WF s)
    (hb : s.length + c.length + 65 ≤ 2 ^ 64)
    (hs : (string_append_cstr alloc s c).1 = true) :
    WF (string_append_cstr alloc s c).2 ∧
    (string_append_cstr alloc s c).2.length = s.length + c.length := by
  by_cases hc0 : c.length = 0
  · have hnil : c = [] := List.length_eq_zero.mp hc0
    subst hnil
    have heq : string_append_cstr alloc s [] = (true, s) := rfl
    rw [heq]
    exact ⟨hwf, by simp⟩
  · rw [string_append_cstr_eq alloc s c hc0] at hs ⊢
    have hsucc : (ensure_capacity alloc s (sz (s.length + c.length + 1))).1 = true := hs
    have hsz : sz (s.length + c.length + 1) = s.length + c.length + 1 :=
      sz_eq_of_lt (by omega)
    obtain ⟨-, -, -, h4⟩ :=
      ensure_capacity_spec alloc s (sz (s.length + c.length + 1)) hwf (by rw [hsz]; omega)
    obtain ⟨hwf1, hlen1, hbuf1, hpres⟩ := h4 hsucc
    set E := (ensure_capacity alloc s (sz (s.length + c.length + 1))).2 with hE
    have hbuf1' : s.length + c.length + 1 ≤ E.buf.length :=
      le_trans (le_of_eq hsz.symm) hbuf1
    rw [if_pos hsucc]
    have hszlen : sz (E.length + c.length) = s.length + c.length := by
      rw [hlen1]
      exact sz_eq_of_lt (by omega)
    have hblitle : E.length + (c ++ [0]).length ≤ E.buf.length := by
      rw [hlen1, List.length_append]
      simp only [List.length_cons, List.length_nil]
      omega
    refine ⟨?_, hszlen⟩
    refine WF_mk _ _ _ ?_ ?_ ?_
    · intro h
      obtain ⟨h1, h2⟩ := hwf1.1 h
      refine ⟨by rw [blit_length]; exact h1, ?_⟩
      rw [hszlen]
      rw [h1] at hbuf1'
      show s.length + c.length ≤ 23
      simp [SSO_SIZE] at hbuf1'
      omega
    · intro h
      obtain ⟨h1, h2, h3, h4x⟩ := hwf1.2.1 h
      rw [blit_length, hszlen]
      exact ⟨h1, h2, h3, by omega⟩
    · rw [hszlen]
      rw [getElem?_blit_in _ _ _ _ (by omega)
        (by rw [hlen1]
            simp only [List.length_append, List.length_cons, List.length_nil]
            omega)
        hblitle]
      rw [hlen1]
      rw [show s.length + c.length - s.length = c.length by omega]
      rw [List.getElem?_append_right (by omega)]
      simp

theorem string_set_WF (alloc : Bool) (s : string) (c : List Nat) (hwf : WF s)
    (hb : c.length + 65 ≤ 2 ^ 64) (hs : (string_set alloc s c).1 = true) :
    WF (string_set alloc s c).2 := by
  rw [string_set_eq] at hs ⊢
  have hsucc : (ensure_capacity alloc s (sz (c.length + 1))).1 = true := hs
  have hsz : sz (c.length + 1) = c.length + 1 := sz_eq_of_lt (by omega)
  obtain ⟨-, -, -, h4⟩ :=
    ensure_capacity_spec alloc s (sz (c.length + 1)) hwf (by rw [hsz]; omega)
  obtain ⟨hwf1, hlen1, hbuf1, hpres⟩ := h4 hsucc
  set E := (ensure_capacity alloc s (sz (c.length + 1))).2 with hE
  have hbuf1' : c.length + 1 ≤ E.buf.length := le_trans (le_of_eq hsz.symm) hbuf1
  rw [if_pos hsucc]
  show WF { E with buf := blit E.buf 0 (c ++ [0]), length := c.length }
  refine WF_mk _ _ _ ?_ ?_ ?_
  · intro h
    obtain ⟨h1, h2⟩ := hwf1.1 h
    refine ⟨by rw [blit_length]; exact h1, ?_⟩
    rw [h1] at hbuf1'
    show c.length ≤ 23
    simp [SSO_SIZE] at hbuf1'
    omega
  · intro h
    obtain ⟨h1, h2, h3, h4x⟩ := hwf1.2.1 h
    rw [blit_length]
    exact ⟨h1, h2, h3, by omega⟩
  · show (blit E.buf 0 (c ++ [0]))[c.length]? = some 0
    rw [getElem?_blit_in _ _ _ _ (by omega)
      (by simp only [List.length_append, List.length_cons, List.length_nil]; omega)
      (by simp only [List.length_append, List.length_cons, List.length_nil]; omega)]
    rw [Nat.sub_zero]
    rw [List.getElem?_append_right (by omega)]
    simp

theorem string_append_char_WF (alloc : Bool) (s : string) (c : Nat) (hwf : WF s)
    (hb : s.length + 66 ≤ 2 ^ 64) (hs : (string_append_char alloc s c).1 = true) :
    WF (string_append_char alloc s c).2 := by
  rw [string_append_char_eq] at hs ⊢
  have hsucc : (ensure_capacity alloc s (sz (s.length + 2))).1 = true := hs
  have hsz : sz (s.length + 2) = s.length + 2 := sz_eq_of_lt (by omega)
  obtain ⟨-, -, -, h4⟩ :=
    ensure_capacity_spec alloc s (sz (s.length + 2)) hwf (by rw [hsz]; omega)
  obtain ⟨hwf1, hlen1, hbuf1, hpres⟩ := h4 hsucc
  set E := (ensure_capacity alloc s (sz (s.length + 2))).2 with hE
  have hbuf1' : s.length + 2 ≤ E.buf.length := le_trans (le_of_eq hsz.symm) hbuf1
  rw [if_pos hsucc]
  have hszl : sz (E.length + 1) = s.length + 1 := by
    rw [hlen1]
    exact sz_eq_of_lt (by omega)
  show WF { E with buf := setByte (setByte E.buf E.length c) (E.length + 1) 0,
                   length := sz (E.length + 1) }
  refine WF_mk _ _ _ ?_ ?_ ?_
  · intro h
    obtain ⟨h1, h2⟩ := hwf1.1 h
    refine ⟨by rw [setByte_length, setByte_length]; exact h1, ?_⟩
    rw [hszl]
    rw [h1] at hbuf1'
    show s.length + 1 ≤ 23
    simp [SSO_SIZE] at hbuf1'
    omega
  · intro h
    obtain ⟨h1, h2, h3, h4x⟩ := hwf1.2.1 h
    rw [setByte_length, setByte_length, hszl]
    exact ⟨h1, h2, h3, by omega⟩
  · rw [hszl, hlen1]
    rw [getElem?_setByte_self]
    rw [setByte_length]
    omega

theorem replace_shrink_loop_succ (o n : List Nat) (fuel : Nat) (buf : List Nat)
    (w r len : Nat) :
    replace_shrink_loop o n (fuel + 1) buf w r len =
      if r < len then
        match memmemIdx (extract buf r (len - r)) o with
        | none => ((if w ≠ r then blit buf w (extract buf r (len - r)) else buf),
                   w + (len - r))
        | some i =>
          replace_shrink_loop o n fuel
            (blit (if 0 < i ∧ w ≠ r then blit buf w (extract buf r i) else buf)
              (w + i) n)
            (w + i + n.length) (r + i + o.length) len
      else (buf, w) := rfl

theorem replace_shrink_loop_eq_none (o n : List Nat) (fuel : Nat) (buf : List Nat)
    (w r len : Nat) (hr : r < len)
    (hm : memmemIdx (extract buf r (len - r)) o = none) :
    replace_shrink_loop o n (fuel + 1) buf w r len =
      ((if w ≠ r then blit buf w (extract buf r (len - r)) else buf), w + (len - r)) := by
  rw [replace_shrink_loop_succ, if_pos hr, hm]

theorem replace_shrink_loop_eq_some (o n : List Nat) (fuel : Nat) (buf : List Nat)
    (w r len : Nat) (hr : r < len) (i : Nat)
    (hm : memmemIdx (extract buf r (len - r)) o = some i) :
    replace_shrink_loop o n (fuel + 1) buf w r len =
      replace_shrink_loop o n fuel
        (blit (if 0 < i ∧ w ≠ r then blit buf w (extract buf r i) else buf) (w + i) n)
        (w + i + n.length) (r + i + o.length) len := by
  rw [replace_shrink_loop_succ, if_pos hr, hm]

theorem replace_shrink_loop_spec (o n : List Nat) (hn : n.length ≤ o.length) :
    ∀ (fuel : Nat) (buf : List Nat) (w r len : Nat), w ≤ r → r ≤ len →
      (replace_shrink_loop o n fuel buf w r len).1.length = buf.length ∧
      (replace_shrink_loop o n fuel buf w r len).2 ≤ len := by
  intro fuel
  induction fuel with
  | zero => intro buf w r len hwr hrl; exact ⟨rfl, show w ≤ len by omega⟩
  | succ fuel ih =>
    intro buf w r len hwr hrl
    by_cases hr : r < len
    · cases hm : memmemIdx (extract buf r (len - r)) o with
      | none =>
        rw [replace_shrink_loop_eq_none o n fuel buf w r len hr hm]
        constructor
        · show (if w ≠ r then blit buf w (extract buf r (len - r)) else buf).length =
            buf.length
          split
          · exact blit_length _ _ _
          · rfl
        · show w + (len - r) ≤ len
          omega
      | some i =>
        rw [replace_shrink_loop_eq_some o n fuel buf w r len hr i hm]
        have hle := memmemIdx_some_le _ o i hm
        have hext := extract_length_le buf r (len - r)
        obtain ⟨ha, hb⟩ := ih
          (blit (if 0 < i ∧ w ≠ r then blit buf w (extract buf r i) else buf) (w + i) n)
          (w + i + n.length) (r + i + o.length) len (by omega) (by omega)
        refine ⟨?_, hb⟩
        rw [ha, blit_length]
        split
        · exact blit_length _ _ _
        · rfl
    · rw [replace_shrink_loop_succ, if_neg hr]
      exact ⟨rfl, by omega⟩

theorem replace_grow_loop_succ (o n : List Nat) (fuel : Nat) (buf : List Nat)
    (w r : Nat) (last : Option Nat) :
    replace_grow_loop o n (fuel + 1) buf w r last =
      if 0 < r then
        match memmemIdx (buf.take r) o with
        | none => (buf, r)
        | some m =>
          if some m = last then (buf, r)
          else
            replace_grow_loop o n fuel
              (blit (blit buf (w - (r - (m + o.length)))
                  (extract buf (m + o.length) (r - (m + o.length))))
                (w - (r - (m + o.length)) - n.length) n)
              (w - (r - (m + o.length)) - n.length) m (some m)
      else (buf, r) := rfl

theorem replace_grow_loop_eq_none (o n : List Nat) (fuel : Nat) (buf : List Nat)
    (w r : Nat) (last : Option Nat) (hr : 0 < r)
    (hm : memmemIdx (buf.take r) o = none) :
    replace_grow_loop o n (fuel + 1) buf w r last = (buf, r) := by
  rw [replace_grow_loop_succ, if_pos hr, hm]

theorem replace_grow_loop_eq_some (o n : List Nat) (fuel : Nat) (buf : List Nat)
    (w r : Nat) (last : Option Nat) (hr : 0 < r) (m : Nat)
    (hm : memmemIdx (buf.take r) o = some m) :
    replace_grow_loop o n (fuel + 1) buf w r last =
      if some m = last then (buf, r)
      else
        replace_grow_loop o n fuel
          (blit (blit buf (w - (r - (m + o.length)))
              (extract buf (m + o.length) (r - (m + o.length))))
            (w - (r - (m + o.length)) - n.length) n)
          (w - (r - (m + o.length)) - n.length) m (some m) := by
  rw [replace_grow_loop_succ, if_pos hr, hm]

theorem replace_grow_loop_spec (o n : List Nat) (T : Nat) (hn : n.length ≤ T) :
    ∀ (fuel : Nat) (buf : List Nat) (w r : Nat) (last : Option Nat),
      w ≤ T → r ≤ T → T < buf.length →
      (replace_grow_loop o n fuel buf w r last).1.length = buf.length ∧
      (replace_grow_loop o n fuel buf w r last).1[T]? = buf[T]? ∧
      (replace_grow_loop o n fuel buf w r last).2 ≤ r := by
  intro fuel
  induction fuel with
  | zero => intro buf w r last hw hr hT; exact ⟨rfl, rfl, le_refl r⟩
  | succ fuel ih =>
    intro buf w r last hw hr hT
    by_cases hr0 : 0 < r
    · cases hm : memmemIdx (buf.take r) o with
      | none =>
        rw [replace_grow_loop_eq_none o n fuel buf w r last hr0 hm]
        exact ⟨rfl, rfl, le_refl r⟩
      | some m =>
        rw [replace_grow_loop_eq_some o n fuel buf w r last hr0 m hm]
        by_cases hlast : some m = last
        · rw [if_pos hlast]
          exact ⟨rfl, rfl, le_refl r⟩
        · rw [if_neg hlast]
          have hmr : m + o.length ≤ r := by
            have := memmemIdx_some_le _ o m hm
            rw [List.length_take] at this
            omega
          have hsuf := extract_length_le buf (m + o.length) (r - (m + o.length))
          have hb1 : (w - (r - (m + o.length))) +
              (extract buf (m + o.length) (r - (m + o.length))).length ≤ T := by
            omega
          have hb1le : (w - (r - (m + o.length))) +
              (extract buf (m + o.length) (r - (m + o.length))).length ≤
              buf.length := by omega
          have hb2 : (w - (r - (m + o.length)) - n.length) + n.length ≤ T := by
            omega
          have hb2le : (w - (r - (m + o.length)) - n.length) + n.length ≤
              (blit buf (w - (r - (m + o.length)))
                (extract buf (m + o.length) (r - (m + o.length)))).length := by
            rw [blit_length]
            omega
          obtain ⟨ha, hb, hc⟩ := ih
            (blit (blit buf (w - (r - (m + o.length)))
                (extract buf (m + o.length) (r - (m + o.length))))
              (w - (r - (m + o.length)) - n.length) n)
            (w - (r - (m + o.length)) - n.length) m (some m)
            (by omega) (by omega)
            (by rw [blit_length, blit_length]; omega)
          refine ⟨?_, ?_, ?_⟩
          · rw [ha, blit_length, blit_length]
          · rw [hb]
            rw [getElem?_blit_ge _ _ _ _ hb2 hb2le]
            rw [getElem?_blit_ge _ _ _ _ hb1 hb1le]
          · omega
    · rw [replace_grow_loop_succ, if_neg hr0]
      exact ⟨rfl, rfl, le_refl r⟩

theorem string_replace_eq (alloc : Bool) (s : string) (o n : List Nat) :
    string_replace alloc s o n =
      if s.length = 0 then (false, s)
      else if o.length = 0 then (true, s)
      else if count_occ (s.length + 1) o (content s) = 0 then (true, s)
      else if n.length ≤ o.length then
        if (replace_shrink_s1 o n s).is_small = false ∧
            (replace_shrink_s1 o n s).length ≤ SSO_SIZE then
          (true, try_shrink_to_small (replace_shrink_s1 o n s))
        else (true, replace_shrink_s1 o n s)
      else if 2 ^ 64 ≤ count_occ (s.length + 1) o (content s) * n.length then (false, s)
      else if 2 ^ 64 ≤ s.length + count_occ (s.length + 1) o (content s) * n.length then
        (false, s)
      else if s.length + count_occ (s.length + 1) o (content s) * n.length <
          sz (count_occ (s.length + 1) o (content s) * o.length) then (false, s)
      else
        match ensure_capacity alloc s (sz (s.length +
            count_occ (s.length + 1) o (content s) * n.length -
            sz (count_occ (s.length + 1) o (content s) * o.length) + 1)) with
        | (false, s1) => (false, s1)
        | (true, s1) => (true, replace_grow_finish o n s s1) := rfl

theorem replace_grow_finish_WF (o n : List Nat) (s s1 : string)
    (hwf1 : WF s1) (hlen1 : s1.length = s.length)
    (hbuf1 : s.length + count_occ (s.length + 1) o (content s) * n.length -
      sz (count_occ (s.length + 1) o (content s) * o.length) + 1 ≤ s1.buf.length)
    (hnle : n.length ≤ s.length + count_occ (s.length + 1) o (content s) * n.length -
      sz (count_occ (s.length + 1) o (content s) * o.length))
    (hsle : s.length ≤ s.length + count_occ (s.length + 1) o (content s) * n.length -
      sz (count_occ (s.length + 1) o (content s) * o.length)) :
    WF (replace_grow_finish o n s s1) := by
  set NT := s.length + count_occ (s.length + 1) o (content s) * n.length -
    sz (count_occ (s.length + 1) o (content s) * o.length) with hNT
  have hp : replace_grow_p o n s s1 =
      replace_grow_loop o n (s.length + 1) (setByte s1.buf NT 0) NT s.length none := rfl
  obtain ⟨hA, hB, hC⟩ := replace_grow_loop_spec o n NT hnle (s.length + 1)
    (setByte s1.buf NT 0) NT s.length none (le_refl NT) hsle
    (by rw [setByte_length]; omega)
  rw [← hp] at hA hB hC
  have hA' : (replace_grow_p o n s s1).1.length = s1.buf.length := by
    rw [hA, setByte_length]
  have hB' : (replace_grow_p o n s s1).1[NT]? = some 0 := by
    rw [hB]
    exact getElem?_setByte_self _ _ _ (by omega)
  have hext := extract_length_le (replace_grow_p o n s s1).1 0 (replace_grow_p o n s s1).2
  show WF { s1 with
    buf := if 0 < (replace_grow_p o n s s1).2 then
        blit (replace_grow_p o n s s1).1 0
          (extract (replace_grow_p o n s s1).1 0 (replace_grow_p o n s s1).2)
      else (replace_grow_p o n s s1).1,
    length := NT }
  have hbuflen : (if 0 < (replace_grow_p o n s s1).2 then
      blit (replace_grow_p o n s s1).1 0
        (extract (replace_grow_p o n s s1).1 0 (replace_grow_p o n s s1).2)
      else (replace_grow_p o n s s1).1).length = s1.buf.length := by
    split
    · rw [blit_length]
      exact hA'
    · exact hA'
  have hterm : (if 0 < (replace_grow_p o n s s1).2 then
      blit (replace_grow_p o n s s1).1 0
        (extract (replace_grow_p o n s s1).1 0 (replace_grow_p o n s s1).2)
      else (replace_grow_p o n s s1).1)[NT]? = some 0 := by
    split
    · rw [getElem?_blit_ge _ _ _ _ (by omega) (by omega)]
      exact hB'
    · exact hB'
  have h23 : SSO_SIZE = 23 := rfl
  refine WF_mk _ _ _ ?_ ?_ ?_
  · intro h
    obtain ⟨h1, h2⟩ := hwf1.1 h
    refine ⟨by rw [hbuflen]; exact h1, by omega⟩
  · intro h
    obtain ⟨h1, h2, h3, h4⟩ := hwf1.2.1 h
    rw [hbuflen]
    exact ⟨h1, h2, h3, by omega⟩
  · exact hterm

theorem string_replace_WF (alloc : Bool) (s : string) (o n : List Nat) (hwf : WF s)
    (hb : s.length + count_occ (s.length + 1) o (content s) * n.length + 65 ≤ 2 ^ 64)
    (hs : (string_replace alloc s o n).1 = true) :
    WF (string_replace alloc s o n).2 := by
  rw [string_replace_eq] at hs ⊢
  by_cases h0 : s.length = 0
  · rw [if_pos h0] at hs
    exact absurd hs (by simp)
  rw [if_neg h0] at hs ⊢
  by_cases ho : o.length = 0
  · rw [if_pos ho]
    exact hwf
  rw [if_neg ho] at hs ⊢
  by_cases hc : count_occ (s.length + 1) o (content s) = 0
  · rw [if_pos hc]
    exact hwf
  rw [if_neg hc] at hs ⊢
  by_cases hshr : n.length ≤ o.length
  · rw [if_pos hshr]
    obtain ⟨hplen, hp2⟩ := replace_shrink_loop_spec o n hshr (s.length + 1) s.buf 0 0
      s.length (le_refl 0) (Nat.zero_le _)
    have hs1 : WF (replace_shrink_s1 o n s) := by
      show WF { is_small := s.is_small,
                buf := setByte (replace_shrink_loop o n (s.length + 1) s.buf 0 0
                    s.length).1
                  (replace_shrink_loop o n (s.length + 1) s.buf 0 0 s.length).2 0,
                length := (replace_shrink_loop o n (s.length + 1) s.buf 0 0 s.length).2 }
      exact WF_update s hwf _ _ hplen hp2
    split
    · exact try_shrink_WF _ hs1
    · exact hs1
  rw [if_neg hshr] at hs ⊢
  have hcnt1 : 1 ≤ count_occ (s.length + 1) o (content s) := Nat.pos_of_ne_zero hc
  have hclen : (content s).length = s.length := content_length s hwf
  have hmulo : count_occ (s.length + 1) o (content s) * o.length ≤ s.length := by
    have := count_occ_mul_le o (s.length + 1) (content s)
    omega
  have hmuln : n.length ≤ count_occ (s.length + 1) o (content s) * n.length :=
    Nat.le_mul_of_pos_left n.length hcnt1
  have hmulon : count_occ (s.length + 1) o (content s) * o.length ≤
      count_occ (s.length + 1) o (content s) * n.length :=
    Nat.mul_le_mul_left _ (by omega)
  have g1 : ¬ 2 ^ 64 ≤ count_occ (s.length + 1) o (content s) * n.length := by omega
  rw [if_neg g1] at hs ⊢
  have g2 : ¬ 2 ^ 64 ≤ s.length + count_occ (s.length + 1) o (content s) * n.length := by
    omega
  rw [if_neg g2] at hs ⊢
  have hszo : sz (count_occ (s.length + 1) o (content s) * o.length) =
      count_occ (s.length + 1) o (content s) * o.length := sz_eq_of_lt (by omega)
  have g3 : ¬ s.length + count_occ (s.length + 1) o (content s) * n.length <
      sz (count_occ (s.length + 1) o (content s) * o.length) := by
    rw [hszo]
    omega
  rw [if_neg g3] at hs ⊢
  have hNTsz : sz (s.length + count_occ (s.length + 1) o (content s) * n.length -
      sz (count_occ (s.length + 1) o (content s) * o.length) + 1) =
      s.length + count_occ (s.length + 1) o (content s) * n.length -
      sz (count_occ (s.length + 1) o (content s) * o.length) + 1 := by
    rw [hszo]
    exact sz_eq_of_lt (by omega)
  obtain ⟨-, -, -, h4⟩ := ensure_capacity_spec alloc s (sz (s.length +
      count_occ (s.length + 1) o (content s) * n.length -
      sz (count_occ (s.length + 1) o (content s) * o.length) + 1)) hwf
    (by rw [hNTsz, hszo]; omega)
  cases hE : ensure_capacity alloc s (sz (s.length +
      count_occ (s.length + 1) o (content s) * n.length -
      sz (count_occ (s.length + 1) o (content s) * o.length) + 1)) with
  | mk b1 s1 =>
    rw [hE] at hs
    cases b1 with
    | false => exact absurd (show (false : Bool) = true from hs) (by simp)
    | true =>
      show WF (replace_grow_finish o n s s1)
      obtain ⟨hwf1, hlen1, hbuf1, -⟩ := h4 (by rw [hE])
      have hwf1' : WF s1 := by
        rw [hE] at hwf1
        exact hwf1
      have hlen1' : s1.length = s.length := by
        rw [hE] at hlen1
        exact hlen1
      have hbuf1' : s.length + count_occ (s.length + 1) o (content s) * n.length -
          sz (count_occ (s.length + 1) o (content s) * o.length) + 1 ≤
          s1.buf.length := by
        rw [hE] at hbuf1
        rw [hNTsz] at hbuf1
        exact hbuf1
      exact replace_grow_finish_WF o n s s1 hwf1' hlen1' hbuf1'
        (by rw [hszo]; omega) (by rw [hszo]; omega)

theorem WF_invariant (t : string) (h : WF t) :
    t.length ≤ STRING_CAPACITY t ∧
    (t.is_small = false → t.length + 1 ≤ STRING_CAPACITY t) ∧
    t.buf[t.length]? = some 0 := by
  refine ⟨?_, ?_, h.2.2⟩
  · unfold STRING_CAPACITY
    cases hb : t.is_small with
    | false =>
      rw [if_neg (by simp)]
      have := (h.2.1 hb).2.2.2
      omega
    | true =>
      rw [if_pos rfl]
      exact (h.1 hb).2
  · intro hb
    unfold STRING_CAPACITY
    rw [hb, if_neg (by simp)]
    exact (h.2.1 hb).2.2.2

/-- C1: evaluation of the code at the failing input.  The claim (and
Scenario 4 of the spec) states that `string_replace(new("aaa"), "a", "bb")`
leaves content `"bbbbbb"`.  The growing path searches `memmem` from the
start of the buffer, so it finds the leftmost match, replaces only that
one, copies the still-unreplaced suffix behind it and leaves the stale
prefix bytes in place: the call reports success with content `"aabbaa"`
(bytes 97 97 98 98 97 97) and length 6. -/
theorem C1_replace_grow_aaa_eval :
    string_new true [97, 97, 97] = some aaaS ∧
    string_replace true aaaS [97] [98, 98] =
      (true, { is_small := true, buf := [97, 97, 98, 98, 97, 97, 0] ++ List.replicate 17 0,
               length := 6 }) ∧
    content (string_replace true aaaS [97] [98, 98]).2 = [97, 97, 98, 98, 97, 97] := by
  decide

/-- C3: evaluation of the two `string_compare` variants at the failing
input.  The claim states that a strict prefix compares strictly less.  The
portable (non-`__SSE4_2__`) variant returns the bare `memcmp` over the
shorter length with no length tie-break, so `"ab"` vs `"abc"` compares
equal (0) in both directions, while the `__SSE4_2__` variant returns the
claimed negative (resp. positive) value. -/
theorem C3_compare_variants_eval :
    string_new true [97, 98] = some abS ∧
    string_new true [97, 98, 99] = some abcS ∧
    string_compare (some abS) (some abcS) = 0 ∧
    string_compare (some abcS) (some abS) = 0 ∧
    string_compare_sse42 (some abS) (some abcS) = -1 ∧
    string_compare_sse42 (some abcS) (some abS) = 1 := by
  decide

/-- C2 counterexample: `string_trim` demotes a heap string whose trimmed
length is exactly `SSO_SIZE = 23` to the inline representation, after which
`string_capacity` reports 23 and `length <= capacity - 1` fails (the
terminator lives in the 24th byte of the physical inline buffer). -/
theorem C2_trim_sso_counterexample :
    string_new true wsA23 = some heap25S ∧ WF heap25S ∧
    string_trim true heap25S = small23S ∧
    small23S.length = 23 ∧ STRING_CAPACITY small23S = 23 ∧
    ¬ small23S.length ≤ STRING_CAPACITY small23S - 1 := by
  decide

/-- **C2** (corrected): after every mutating operation (set, append,
append_cstr, append_char, clear, trim, replace, to_upper, to_lower) that
reports success on a well-formed receiver — under the `size_t` side
conditions `sizeOK` that every physically realisable call satisfies —
the receiver satisfies `length ≤ capacity` (as reported by
`string_capacity` for the current representation), in the **heap**
representation moreover the claimed `length ≤ capacity - 1`, and the
byte stored at offset `length` is the terminator 0.  The claim's
`length ≤ capacity - 1` does not hold for the inline representation:
a trim demotion can leave `length = capacity = SSO_SIZE = 23`, the
terminator occupying the 24th physical inline byte. -/
theorem C2_invariant (alloc : Bool) (op : Op) (s : string) (hwf : WF s)
    (hok : sizeOK op s) (hsucc : (applyOp alloc op s).1 = true) :
    (applyOp alloc op s).2.length ≤ STRING_CAPACITY (applyOp alloc op s).2 ∧
    ((applyOp alloc op s).2.is_small = false →
      (applyOp alloc op s).2.length + 1 ≤ STRING_CAPACITY (applyOp alloc op s).2) ∧
    (applyOp alloc op s).2.buf[(applyOp alloc op s).2.length]? = some 0 := by
  have hwf2 : WF (applyOp alloc op s).2 := by
    cases op with
    | set c => exact string_set_WF alloc s c hwf hok hsucc
    | append o => exact (string_append_cstr_ok alloc s (cstrOf o) hwf hok hsucc).1
    | append_cstr c => exact (string_append_cstr_ok alloc s c hwf hok hsucc).1
    | append_char c => exact string_append_char_WF alloc s c hwf hok hsucc
    | clear => exact string_clear_WF s hwf
    | trim => exact (string_trim_spec alloc s hwf).2.2.1
    | replace o n => exact string_replace_WF alloc s o n hwf hok hsucc
    | to_upper => exact (string_to_upper_WF s hwf).1
    | to_lower => exact (string_to_lower_WF s hwf).1
  exact WF_invariant _ hwf2

theorem C2_invariant_witness :
    WF heap25S ∧ (applyOp true Op.trim heap25S).1 = true ∧
    ((applyOp true Op.trim heap25S).2.length ≤
        STRING_CAPACITY (applyOp true Op.trim heap25S).2 ∧
      ((applyOp true Op.trim heap25S).2.is_small = false →
        (applyOp true Op.trim heap25S).2.length + 1 ≤
          STRING_CAPACITY (applyOp true Op.trim heap25S).2) ∧
      (applyOp true Op.trim heap25S).2.buf[(applyOp true
        Op.trim heap25S).2.length]? = some 0) ∧
    (applyOp true Op.trim heap25S).2.length =
      STRING_CAPACITY (applyOp true Op.trim heap25S).2 :=
  ⟨by decide, by decide,
    C2_invariant true Op.trim heap25S (by decide) trivial (by decide), by decide⟩

/-- C4 counterexample: the claim asserts `N+1` non-NULL parts including an
empty part for a trailing delimiter.  `split(new("a,"), ",")` reports
`count = 2` but the second array slot is left `NULL` (the field loop stops
when the scan cursor reaches the end of the string), not an empty string. -/
theorem C4_split_trailing_counterexample :
    string_new true [97, 44] = some aCommaS ∧
    string_split true aCommaS [44] = (some [some aS, none], 2) := by
  decide

/-- **C4** (corrected): on a non-empty string and non-empty delimiter with
`N` non-overlapping occurrences, `string_split` reports `count = N + 1`
and returns the array of the fields produced by the greedy left-to-right
scan, each as a fresh independently-owned string, **followed by `NULL`
slots for the fields the loop never reaches**: the field list joined with
the delimiter reconstructs the content, and either all `N + 1` fields are
produced (no trailing delimiter) or only `N` are and the content ends
with the delimiter — in that case the last array slot stays `NULL`
instead of holding the claimed empty part.  Empty parts *between*
adjacent delimiters and after a leading delimiter are produced. -/
theorem C4_split (s : string) (delim : List Nat) (hwf : WF s)
    (hs : ¬ s.length = 0) (hd : ¬ delim.length = 0) (hb : s.length + 65 ≤ 2 ^ 64) :
    (string_split true s delim).2 = count_occ (s.length + 1) delim (content s) + 1 ∧
    (string_split true s delim).1 =
      some ((split_fields (s.length + 1) delim (content s)).map (mkSplitPart true) ++
        List.replicate (count_occ (s.length + 1) delim (content s) + 1 -
          (split_fields (s.length + 1) delim (content s)).length) none) ∧
    (∀ b ∈ split_fields (s.length + 1) delim (content s),
      ∃ p, mkSplitPart true b = some p ∧ WF p ∧ content p = b ∧ p.length = b.length) ∧
    (((split_fields (s.length + 1) delim (content s)).length =
        count_occ (s.length + 1) delim (content s) + 1 ∧
      fields_join delim (split_fields (s.length + 1) delim (content s)) = content s) ∨
     ((split_fields (s.length + 1) delim (content s)).length =
        count_occ (s.length + 1) delim (content s) ∧
      fields_join delim (split_fields (s.length + 1) delim (content s)) ++ delim =
        content s)) := by
  have hcl : (content s).length = s.length := content_length s hwf
  have heq := string_split_eq true s delim hs hd
  rw [if_neg (by simp)] at heq
  refine ⟨?_, ?_, ?_, ?_⟩
  · rw [heq]
    exact Nat.add_comm 1 _
  · rw [heq]
    rw [Nat.add_comm 1 (count_occ (s.length + 1) delim (content s))]
  · intro b hbmem
    have hlb := split_fields_mem_length delim (s.length + 1) (content s) b hbmem
    exact mkSplitPart_spec b (by omega)
  · exact split_fields_spec delim hd (s.length + 1) (content s) (by omega)
      (by rw [hcl]; exact hs)

theorem C4_split_witness :
    ((string_split true accbS [44]).2 =
        count_occ (accbS.length + 1) [44] (content accbS) + 1 ∧
      (string_split true accbS [44]).1 =
        some ((split_fields (accbS.length + 1) [44] (content accbS)).map
            (mkSplitPart true) ++
          List.replicate (count_occ (accbS.length + 1) [44] (content accbS) + 1 -
            (split_fields (accbS.length + 1) [44] (content accbS)).length) none) ∧
      (∀ b ∈ split_fields (accbS.length + 1) [44] (content accbS),
        ∃ p, mkSplitPart true b = some p ∧ WF p ∧ content p = b ∧ p.length = b.length) ∧
      (((split_fields (accbS.length + 1) [44] (content accbS)).length =
          count_occ (accbS.length + 1) [44] (content accbS) + 1 ∧
        fields_join [44] (split_fields (accbS.length + 1) [44] (content accbS)) =
          content accbS) ∨
       ((split_fields (accbS.length + 1) [44] (content accbS)).length =
          count_occ (accbS.length + 1) [44] (content accbS) ∧
        fields_join [44] (split_fields (accbS.length + 1) [44] (content accbS)) ++
          [44] = content accbS))) ∧
    split_fields (accbS.length + 1) [44] (content accbS) = [[97], [], [98]] :=
  ⟨C4_split accbS [44] (by decide) (by decide) (by decide) (by decide), by decide⟩

/-- C5 counterexample: the claim asserts the delimiter is never placed
after the last contributed part and that non-NULL parts are concatenated
whole.  (1) `join(["a", NULL], ",")` appends the delimiter after `"a"`
because `"a"` is not in the last array position, yielding `"a,"`.
(2) a part with content bytes `97 0 98` (embedded NUL, built with
`string_append_char`) contributes only its C-string prefix `97`. -/
theorem C5_join_counterexample :
    string_join true [some aS, none] [44] =
      some { is_small := true, buf := [97, 44, 0] ++ List.replicate 21 0, length := 2 } ∧
    string_append_char true (string_append_char true aS 0).2 98 = (true, a0bS) ∧
    content a0bS = [97, 0, 98] ∧
    string_join true [some a0bS] [45] =
      some { is_small := true, buf := [97, 0, 0] ++ List.replicate 21 0, length := 1 } := by
  decide

/-- **C5** (corrected): for every non-empty array of parts, (1) when the
parts are well-formed and NUL-free and the joined length (plus slack for
the cache-line rounding) fits in `size_t`, `string_join` succeeds and the
result is exactly `join_content`: the non-NULL parts' C-string contents
in order, with the delimiter appended after every non-NULL part that is
not in the **last array position** (so a delimiter does follow the last
contributed part whenever trailing NULL entries exist, contrary to the
claim's "never after the last contributed part"); and (2) for *all*
parts whatsoever, whenever the `__builtin_add_overflow`-checked
total-length accumulation detects `size_t` overflow, `string_join`
returns NULL instead of wrapping — even with every allocation
succeeding. -/
theorem C5_join (parts : List (Option string)) (delim : List Nat)
    (hne : ¬ parts.length = 0) :
    ((∀ x, some x ∈ parts → WF x ∧ NulFree x) →
      (join_content delim parts).length + 65 ≤ 2 ^ 64 →
      ∃ r, string_join true parts delim = some r ∧ WF r ∧
        content r = join_content delim parts ∧
        r.length = (join_content delim parts).length) ∧
    (join_total delim.length parts 0 = none → string_join true parts delim = none) := by
  constructor
  · intro hmem hb
    have htot := join_total_of_le delim parts 0 (fun x hx => (hmem x hx).1) (by omega)
    have hsz1 : sz (0 + (join_content delim parts).length + 1) =
        (join_content delim parts).length + 1 := by
      show (0 + (join_content delim parts).length + 1) % 2 ^ 64 = _
      rw [Nat.zero_add]
      exact Nat.mod_eq_of_lt (by omega)
    obtain ⟨r0, hr0, hr0wf, hr0len, hr0cont, -⟩ :=
      string_with_capacity_true_spec (sz (0 + (join_content delim parts).length + 1))
        (by rw [hsz1]; omega)
    obtain ⟨r, hl1, hl2, hl3, hl4⟩ :=
      join_loop_spec delim parts r0 hmem hr0wf (by rw [hr0len]; omega)
    refine ⟨r, ?_, hl2, ?_, ?_⟩
    · unfold string_join
      rw [if_neg hne]
      simp only [htot, hr0]
      exact hl1
    · rw [hl3, hr0cont]
      simp
    · rw [hl4, hr0len]
      simp
  · intro h
    unfold string_join
    rw [if_neg hne, h]

theorem C5_join_witness :
    (∃ r, string_join true [some aS, some abS] [44] = some r ∧ WF r ∧
      content r = join_content [44] [some aS, some abS] ∧
      r.length = (join_content [44] [some aS, some abS]).length) ∧
    join_total ([44] : List Nat).length [some hugeS, some hugeS] 0 = none ∧
    string_join true [some hugeS, some hugeS] [44] = none :=
  ⟨(C5_join [some aS, some abS] [44] (by decide)).1
    (by
      intro x hx
      simp only [List.mem_cons, List.mem_singleton, Option.some.injEq,
        List.not_mem_nil, or_false] at hx
      rcases hx with h | h <;> subst h
      · exact ⟨by decide, (by decide : (0 : Nat) ∉ content aS)⟩
      · exact ⟨by decide, (by decide : (0 : Nat) ∉ content abS)⟩)
    (by decide),
   by decide,
   (C5_join [some hugeS, some hugeS] [44] (by decide)).2 (by decide)⟩

/-- C6 counterexample: the claim includes the empty string, but
`string_substr` rejects `start >= str->length`, so
`substr(new(""), 0, length(""))` is `NULL` rather than a copy of the empty
string. -/
theorem C6_substr_empty_counterexample :
    string_new true [] = some emptyS ∧
    string_substr true emptyS 0 (string_length (some emptyS)) = none := by
  decide

/-- C8 counterexample: for `needed = 2^64 - 1` the doubling loop falls back
to `needed` and the cache-line rounding `(needed + 63) & ~63` wraps to 0 in
`size_t`, so a successful `realloc(-, 0)` stores capacity 0: the call
reports success and the capacity shrinks from 64 to 0, violating the
claimed no-shrink guarantee (and strong exception safety). -/
theorem C8_wrap_counterexample :
    WF heap64S ∧ STRING_CAPACITY heap64S = 64 ∧
    (ensure_capacity true heap64S (2 ^ 64 - 1)).1 = true ∧
    STRING_CAPACITY (ensure_capacity true heap64S (2 ^ 64 - 1)).2 = 0 := by
  decide

/-- C8 (amended): for every well-formed string and every `needed` at most
`2^64 - 64` — so that the 64-byte capacity rounding cannot wrap in `size_t`
— `ensure_capacity` is idempotent (when the current capacity already covers
`needed` it returns success immediately with no change), never shrinks the
reported capacity, and on allocation failure returns a failure result with
the string's representation, capacity, length and content exactly as
before the call. -/
theorem C8_ensure_capacity_contract (alloc : Bool) (s : string) (needed : Nat)
    (hwf : WF s) (hn : needed ≤ 2 ^ 64 - 64) :
    (needed ≤ STRING_CAPACITY s → ensure_capacity alloc s needed = (true, s)) ∧
    STRING_CAPACITY s ≤ STRING_CAPACITY (ensure_capacity alloc s needed).2 ∧
    ((ensure_capacity alloc s needed).1 = false →
      ensure_capacity alloc s needed = (false, s)) := by
  obtain ⟨h1, h2, h3, -⟩ := ensure_capacity_spec alloc s needed hwf (by omega)
  exact ⟨h2, h3, h1⟩

/-- C8 witness: the contract applied to a concrete empty heap string of
capacity 64, with `needed = 10` (already covered) and with a failing
allocation at `needed = 100`. -/
theorem C8_ensure_capacity_contract_witness :
    ensure_capacity true heap64S 10 = (true, heap64S) ∧
    ensure_capacity false heap64S 100 = (false, heap64S) := by
  refine ⟨(C8_ensure_capacity_contract true heap64S 10 (by decide) (by decide)).1
    (by decide), ?_⟩
  have h := (C8_ensure_capacity_contract false heap64S 100 (by decide) (by decide)).2.2
  exact h (by decide)

/-- C9: `string_replace` on an empty receiver returns `false` for any
non-null arguments, even though nothing needed replacing; on a non-empty
receiver in which `old_str` does not occur it returns `true` (leaving the
string untouched). -/
theorem C9_replace_empty_vs_nomatch (alloc : Bool) (s : string) (o n : List Nat) :
    (s.length = 0 → string_replace alloc s o n = (false, s)) ∧
    (0 < s.length → memmemIdx (content s) o = none →
      string_replace alloc s o n = (true, s)) := by
  constructor
  · intro h
    unfold string_replace
    rw [if_pos h]
  · intro hpos hnone
    have hnone' : memmemIdx (s.buf.take s.length) o = none := hnone
    have ho : o.length ≠ 0 := by
      intro h0
      rw [List.length_eq_zero] at h0
      subst h0
      rw [memmemIdx_nil] at hnone'
      exact Option.noConfusion hnone'
    have hc : count_occ (s.length + 1) o (s.buf.take s.length) = 0 := by
      unfold count_occ
      rw [hnone']
    simp [string_replace, Nat.pos_iff_ne_zero.mp hpos, ho, hc]

/-- C9 witness: the empty string (built by `string_new("")`) fails, and a
non-empty string without a match of the pattern succeeds unchanged. -/
theorem C9_replace_empty_vs_nomatch_witness :
    string_replace true emptyS [97] [98] = (false, emptyS) ∧
    string_replace true abS [122] [121] = (true, abS) := by
  refine ⟨(C9_replace_empty_vs_nomatch true emptyS [97] [98]).1 (by decide), ?_⟩
  exact (C9_replace_empty_vs_nomatch true abS [122] [121]).2 (by decide) (by decide)

/-- C10 (amended): an inline string always reports capacity `SSO_SIZE = 23`
regardless of the capacity requested at construction (the physical inline
buffer holds `SSO_SIZE + 1 = 24` bytes); any `string_set` of a value of
length at least 23, and any `string_append_cstr` of a non-empty value
reaching resulting length at least 23, promotes the string to the heap on
success.  (Appending an empty value never promotes — it returns success
before any capacity is requested, even at resulting length 23; see the
counterexample.) -/
theorem C10_sso_capacity_and_promotion :
    (∀ (alloc : Bool) (n : Nat), n ≤ SSO_SIZE →
      string_with_capacity alloc n =
        some { is_small := true, buf := List.replicate (SSO_SIZE + 1) 0, length := 0 }) ∧
    (∀ s : string, s.is_small = true → string_capacity (some s) = SSO_SIZE) ∧
    (∀ (alloc : Bool) (s : string) (c : List Nat), WF s → s.is_small = true →
      SSO_SIZE ≤ c.length → c.length + 65 ≤ 2 ^ 64 →
      (string_set alloc s c).1 = true → (string_set alloc s c).2.is_small = false) ∧
    (∀ (alloc : Bool) (s : string) (c : List Nat), WF s → s.is_small = true →
      c ≠ [] → SSO_SIZE ≤ s.length + c.length → s.length + c.length + 65 ≤ 2 ^ 64 →
      (string_append_cstr alloc s c).1 = true →
      (string_append_cstr alloc s c).2.is_small = false) := by
  refine ⟨?_, ?_, ?_, ?_⟩
  · intro alloc n hn
    unfold string_with_capacity
    rw [if_pos hn]
  · intro s hs
    show STRING_CAPACITY s = SSO_SIZE
    unfold STRING_CAPACITY
    rw [if_pos hs]
  · intro alloc s c hwf hs hlen hbound h
    have hsz : sz (c.length + 1) = c.length + 1 := sz_eq_of_lt (by omega)
    have hcap : ¬ (sz (c.length + 1) ≤ STRING_CAPACITY s) := by
      rw [hsz]
      unfold STRING_CAPACITY
      rw [if_pos hs]
      simp [SSO_SIZE] at hlen ⊢
      omega
    rw [string_set_eq] at h ⊢
    have hb : (ensure_capacity alloc s (sz (c.length + 1))).1 = true := h
    rw [if_pos hb]
    exact ensure_capacity_promotes alloc s (sz (c.length + 1)) hcap hb
  · intro alloc s c hwf hs hne hlen hbound h
    have hc0 : ¬ (c.length = 0) := by
      intro h0
      exact hne (List.length_eq_zero.mp h0)
    have hsz : sz (s.length + c.length + 1) = s.length + c.length + 1 :=
      sz_eq_of_lt (by omega)
    have hcap : ¬ (sz (s.length + c.length + 1) ≤ STRING_CAPACITY s) := by
      rw [hsz]
      unfold STRING_CAPACITY
      rw [if_pos hs]
      simp [SSO_SIZE] at hlen ⊢
      omega
    rw [string_append_cstr_eq alloc s c hc0] at h ⊢
    have hb : (ensure_capacity alloc s (sz (s.length + c.length + 1))).1 = true := h
    rw [if_pos hb]
    exact ensure_capacity_promotes alloc s (sz (s.length + c.length + 1)) hcap hb

/-- C10 witness: a small construction request, an inline string's reported
capacity, and concrete promoting set/append calls of 23 letters. -/
theorem C10_sso_capacity_and_promotion_witness :
    string_with_capacity true 5 =
      some { is_small := true, buf := List.replicate (SSO_SIZE + 1) 0, length := 0 } ∧
    string_capacity (some abS) = SSO_SIZE ∧
    (string_set true emptyS (List.replicate 23 107)).2.is_small = false ∧
    (string_append_cstr true emptyS (List.replicate 23 107)).2.is_small = false := by
  obtain ⟨h1, h2, h3, h4⟩ := C10_sso_capacity_and_promotion
  refine ⟨h1 true 5 (by decide), h2 abS (by decide), ?_, ?_⟩
  · exact h3 true emptyS (List.replicate 23 107) (by decide) (by decide) (by decide)
      (by decide) (by decide)
  · exact h4 true emptyS (List.replicate 23 107) (by decide) (by decide) (by decide)
      (by decide) (by decide) (by decide)

/-- C7: `string_trim` is idempotent on the observable string value: a
second trim leaves the content bytes and the length of the first trim's
result unchanged, for any outcomes of the two shrink-heuristic allocation
attempts. -/
theorem C7_trim_idempotent (alloc1 alloc2 : Bool) (s : string) (hwf : WF s) :
    observe (string_trim alloc2 (string_trim alloc1 s)) = observe (string_trim alloc1 s) := by
  obtain ⟨hcnt, hlen, hwf2, hsm⟩ := string_trim_spec alloc1 s hwf
  set t := string_trim alloc1 s with ht
  by_cases ht0 : t.length = 0
  · have heq : string_trim alloc2 t = t := by
      unfold string_trim
      rw [if_pos ht0]
    rw [heq]
  · have hc : t.buf.take t.length = content t := rfl
    have hls : trim_ls t = 0 := by
      unfold trim_ls
      rw [hc, hcnt, trimFn_takeWhile_nil]
      rfl
    have hNL : trim_new_length t = t.length := by
      unfold trim_new_length
      rw [hls, if_neg (by omega), List.drop_zero]
      rw [hc, hcnt, trimFn_reverse_takeWhile_nil]
      simp
    have hspos : 0 < s.length := by
      by_contra hneg
      have hz : s.length = 0 := by omega
      have hce : content s = [] := by
        unfold content
        rw [hz, List.take_zero]
      rw [hce] at hlen
      exact ht0 (by rw [hlen]; rfl)
    have hdem2 : ¬ (t.is_small = false ∧ trim_new_length t ≤ SSO_SIZE) := by
      rintro ⟨hf, hle⟩
      rw [hNL] at hle
      exact absurd (hsm hspos hle) (by rw [hf]; simp)
    have heq2 : trim_s2 t =
        { is_small := t.is_small, buf := setByte t.buf (trim_new_length t) 0,
          length := trim_new_length t } := by
      unfold trim_s2 trim_s1
      rw [if_neg hdem2, if_neg (by rw [hls]; omega)]
    have hobs2 : content (trim_s2 t) = content t ∧ (trim_s2 t).length = t.length := by
      rw [heq2]
      constructor
      · show (setByte t.buf (trim_new_length t) 0).take (trim_new_length t) = content t
        rw [hNL, take_setByte_le _ _ _ _ (Nat.le_refl _)]
        exact hc
      · show trim_new_length t = t.length
        exact hNL
    unfold string_trim
    rw [if_neg ht0]
    by_cases hsh : (trim_s2 t).is_small = false ∧
        sz (2 * trim_new_length t) < (trim_s2 t).buf.length ∧
        SSO_SIZE < trim_new_length t ∧ trim_new_length t < 1024
    · rw [if_pos hsh]
      obtain ⟨hsh1, hsh2, hsh3, hsh4⟩ := hsh
      cases alloc2
      · rw [if_neg (by simp)]
        unfold observe
        rw [hobs2.1, hobs2.2]
      · rw [if_pos rfl]
        have hwf2t : WF (trim_s2 t) := (trim_s2_spec t hwf2 ht0).2.2.1
        have hlb := WF_length_buf (trim_s2 t) hwf2t
        have hs2len : (trim_s2 t).length = t.length := hobs2.2
        have hsz2 : sz (2 * trim_new_length t) = 2 * trim_new_length t :=
          sz_eq_of_lt (by simp [SSO_SIZE] at hsh3; omega)
        have hge : 2 * trim_new_length t ≤ round64 (sz (2 * trim_new_length t)) := by
          rw [hsz2]
          exact round64_ge _ (by simp [SSO_SIZE] at hsh3; omega)
        have h1 : content { trim_s2 t with
            buf := resize (round64 (sz (2 * trim_new_length t))) (trim_s2 t).buf } =
            content t := by
          show (resize (round64 (sz (2 * trim_new_length t)))
            (trim_s2 t).buf).take (trim_s2 t).length = content t
          rw [take_resize _ _ _ (by rw [hs2len, ← hNL]; omega) (by omega)]
          exact hobs2.1
        unfold observe
        rw [h1]
        show (content t, (trim_s2 t).length) = (content t, t.length)
        rw [hs2len]
    · rw [if_neg hsh]
      unfold observe
      rw [hobs2.1, hobs2.2]

/-- C7 witness: idempotence applied to the concrete string `"ab"`. -/
theorem C7_trim_idempotent_witness :
    observe (string_trim true (string_trim true abS)) = observe (string_trim true abS) :=
  C7_trim_idempotent true true abS (by decide)

/-- C6 (amended): for every non-empty well-formed string,
`substr(s, 0, length(s))` returns a fresh well-formed string with the same
content bytes and length.  (For the empty string the call returns `NULL`;
see the counterexample.) -/
theorem C6_substr_roundtrip (s : string) (hwf : WF s) (hpos : 0 < s.length) :
    ∃ t, string_substr true s 0 (string_length (some s)) = some t ∧
      content t = content s ∧ t.length = s.length ∧ WF t := by
  have hbuf := WF_length_buf s hwf
  have hble := WF_buf_le s hwf
  have hlt : s.length < 2 ^ 64 := by omega
  have h0 : ¬ (s.length ≤ 0) := by omega
  have hsz0 : sz (0 + s.length) = s.length := by
    rw [Nat.zero_add]
    exact sz_eq_of_lt hlt
  have hclamp : ¬ (s.length < sz (0 + s.length)) := by
    rw [hsz0]
    omega
  have hsz1 : sz (s.length + 1) = s.length + 1 := sz_eq_of_lt (by omega)
  have hsrc : extract s.buf 0 s.length = content s := by simp [extract, content]
  have hsrclen : (extract s.buf 0 s.length).length = s.length :=
    extract_length _ _ _ (by omega)
  by_cases hsmall : sz (s.length + 1) ≤ SSO_SIZE
  · have hsmall' : s.length + 1 ≤ 23 := by
      rw [hsz1] at hsmall
      simpa [SSO_SIZE] using hsmall
    have hwc : string_with_capacity true (sz (s.length + 1)) =
        some { is_small := true, buf := List.replicate (SSO_SIZE + 1) 0, length := 0 } := by
      unfold string_with_capacity
      rw [if_pos hsmall]
    have heq : string_substr true s 0 (string_length (some s)) =
        some { is_small := true,
               buf := setByte (blit (List.replicate (SSO_SIZE + 1) 0) 0
                 (extract s.buf 0 s.length)) s.length 0,
               length := s.length } := by
      show string_substr true s 0 s.length = _
      simp only [string_substr]
      rw [if_neg h0, if_neg hclamp, hwc]
    refine ⟨_, heq, ?_, rfl, ?_⟩
    · show (setByte (blit (List.replicate (SSO_SIZE + 1) 0) 0
        (extract s.buf 0 s.length)) s.length 0).take s.length = content s
      rw [take_setByte_le _ _ _ _ (Nat.le_refl _)]
      have hb := take_blit_zero (List.replicate (SSO_SIZE + 1) 0)
        (extract s.buf 0 s.length) (by rw [hsrclen]; simp [SSO_SIZE]; omega)
      rw [hsrclen] at hb
      rw [hb, hsrc]
    · refine WF_mk_small _ _ ?_ ?_ ?_
      · rw [setByte_length, blit_length]
        simp
      · omega
      · exact getElem?_setByte_self _ _ _
          (by rw [blit_length]; simp [SSO_SIZE]; omega)
  · have hsmall' : 23 < s.length + 1 := by
      rw [hsz1] at hsmall
      simp [SSO_SIZE] at hsmall
      omega
    have hwrap : s.length + 1 + 63 < 2 ^ 64 := by omega
    have hRge : s.length + 1 ≤ round64 (s.length + 1) := round64_ge _ hwrap
    have hRle : round64 (s.length + 1) ≤ s.length + 64 := by
      have := round64_le _ hwrap
      omega
    have hRdvd : 64 ∣ round64 (s.length + 1) := round64_dvd _
    have hR64 : 64 ≤ round64 (s.length + 1) := by
      rcases hRdvd with ⟨k, hk⟩
      omega
    have hwc : string_with_capacity true (sz (s.length + 1)) =
        some { is_small := false, buf := resize (round64 (s.length + 1)) [0],
               length := 0 } := by
      unfold string_with_capacity
      rw [if_neg hsmall, if_pos rfl, hsz1]
    have heq : string_substr true s 0 (string_length (some s)) =
        some { is_small := false,
               buf := setByte (blit (resize (round64 (s.length + 1)) [0]) 0
                 (extract s.buf 0 s.length)) s.length 0,
               length := s.length } := by
      show string_substr true s 0 s.length = _
      simp only [string_substr]
      rw [if_neg h0, if_neg hclamp, hwc]
    refine ⟨_, heq, ?_, rfl, ?_⟩
    · show (setByte (blit (resize (round64 (s.length + 1)) [0]) 0
        (extract s.buf 0 s.length)) s.length 0).take s.length = content s
      rw [take_setByte_le _ _ _ _ (Nat.le_refl _)]
      have hb := take_blit_zero (resize (round64 (s.length + 1)) [0])
        (extract s.buf 0 s.length) (by rw [hsrclen, resize_length]; omega)
      rw [hsrclen] at hb
      rw [hb, hsrc]
    · refine WF_mk_heap _ _ ?_ ?_ ?_ ?_ ?_
      · rw [setByte_length, blit_length, resize_length]
        omega
      · rw [setByte_length, blit_length, resize_length]
        omega
      · rw [setByte_length, blit_length, resize_length]
        omega
      · rw [setByte_length, blit_length, resize_length]
        omega
      · exact getElem?_setByte_self _ _ _
          (by rw [blit_length, resize_length]; omega)

/-- C6 witness: the roundtrip applied to the concrete string `"ab"`. -/
theorem C6_substr_roundtrip_witness :
    ∃ t, string_substr true abS 0 (string_length (some abS)) = some t ∧
      content t = content abS ∧ t.length = abS.length ∧ WF t :=
  C6_substr_roundtrip abS (by decide) (by decide)

/-- C10 counterexample: the claim asserts that any append whose resulting
length is at least 23 promotes to the heap.  Appending the empty C string
to the inline string of length 23 (reachable by `string_trim` demotion)
returns success via the `cstr_len == 0` early exit without ever requesting
capacity, and the string stays inline. -/
theorem C10_empty_append_counterexample :
    string_trim true heap25S = small23S ∧
    string_append_cstr true small23S [] = (true, small23S) ∧
    small23S.is_small = true ∧ small23S.length = 23 := by
  decide

end StringLib
